import Mathlib

/-!
Verification of the Penrose Turing machine interpreter (penrose-turing.c).

The C program has two components: a codec (`parse_tm`) that decodes the
Penrose run-length encoding of a Turing machine into a transition table,
and an execution engine (`run`) that simulates the decoded machine on a
tape, in a silent discovery pass (pass 1, with a geometrically growing
tape) and, when a trace is requested, a second fixed-width pass (pass 2).

The definitions below are a shallow embedding translated directly from the
C source. Machine integers become Nat or Int; the C tape buffer becomes a
List Char whose cells hold the same characters the C code stores; a read
of an index at or beyond the materialized buffer yields the NUL character,
exactly as the C code reads the string terminator when the tape index
equals the buffer length. Fallible code returns Except, and the unbounded
while loops become fuel recursion; running pass 1 with fuel max_steps + 1
is exact, because the C loop performs at most max_steps + 1 iterations
before the step limit check fires.
-/

deriving instance DecidableEq for Except

namespace PenroseTuring

/-- Token values, as in the C enum: 0 = ZERO, 1 = ONE, 2 = RIGHT,
3 = LEFT, 4 = STOP. The C code does arithmetic on the enum values, so the
embedding keeps them as plain naturals. -/
abbrev token := Nat

/-- One Turing machine action, mirroring struct action. The C field
next_state is a pointer into the states array; the embedding stores the
index of the target state instead. -/
structure action where
  value_to_write : Nat
  direction_to_move : Int
  next_state : Nat
deriving DecidableEq

/-- One Turing machine state, mirroring struct state. -/
structure state where
  number : Nat
  action0 : action
  action1 : action
deriving DecidableEq

/-- Default action used for out of range lookups in the model. -/
def dAction : action := ⟨0, 0, 0⟩

/-- Default state used for out of range lookups in the model. -/
def dState : state := ⟨0, dAction, dAction⟩

/-- Decode errors of parse_tm, one constructor per fatal message. -/
inductive ParseError where
  | invalidChar (ix : Nat)
  | invalidRunLength (ix : Nat)
  | incompleteStateDefinition
  | undefinedStateReference (stateNum : Nat) (target : Nat)
deriving DecidableEq

/-- First loop of parse_tm: every character of the specification must be
a 0 or a 1; the error reports the index of the first offender. -/
def check_tm_chars : List Char → Nat → Except ParseError Unit
  | [], _ => .ok ()
  | c :: rest, ix =>
      if c ≠ '0' ∧ c ≠ '1' then .error (.invalidChar ix)
      else check_tm_chars rest (ix + 1)

/-- The implicit 110 prefix and 110 suffix that parse_tm adds around the
specification before tokenizing. -/
def wrap (tm : List Char) : List Char :=
  '1' :: '1' :: '0' :: (tm ++ ['1', '1', '0'])

/-- Tokenizer loop of parse_tm. The second argument is the index of the
current character in the wrapped string, the third is the value of the C
variable token_len before the increment at the top of the loop body. A
run of k ones terminated by a 0 emits the token k; when the count of
characters since the previous 0 exceeds five the decode fails, reporting
the index in the wrapped string at which that happened. -/
def tokenize : List Char → Nat → Nat → Except ParseError (List token)
  | [], _, _ => .ok []
  | c :: rest, ix, len =>
      if len + 1 > 5 then .error (.invalidRunLength ix)
      else if c = '0' then
        match tokenize rest (ix + 1) 0 with
        | .error e => .error e
        | .ok ts => .ok (len :: ts)
      else tokenize rest (ix + 1) (len + 1)

/-- Partition of the token stream into action bodies: every token with
value at least RIGHT ends one action; the pair records the tokens since
the previous terminator and the terminator itself. Trailing tokens after
the last terminator are never consumed, as in the C loop. -/
def segments : List token → List token → List (List token × token)
  | [], _ => []
  | t :: rest, acc =>
      if 2 ≤ t then (acc.reverse, t) :: segments rest []
      else segments rest (t :: acc)

/-- The C loop that reads the next state index from the binary address
tokens: it walks the address from its last token down to its first while
the power of two grows, so the list passed here is the reversed address. -/
def binvalAux : List token → Nat → Nat
  | [], _ => 0
  | t :: ts, j => t * 2 ^ j + binvalAux ts (j + 1)

/-- Decoding of one action from its body and terminator, mirroring the
branch on token_start in parse_tm: an empty body writes 0 and targets
state 0, a one token body writes that token and targets state 0, a longer
body writes its last token and targets the state read from the earlier
tokens, rejected when the index is out of range. The comparison with
states_len - 1 is a size_t subtraction in C, so no error can fire when
states_len is zero. -/
def mk_action (sl : Nat) (num : Nat) (body : List token) (t : token) :
    Except ParseError action :=
  let dir : Int := if t = 2 then 1 else if t = 3 then -1 else 0
  match body with
  | [] => .ok ⟨0, dir, 0⟩
  | [b] => .ok ⟨b, dir, 0⟩
  | _ :: _ :: _ =>
      let ns := binvalAux body.dropLast.reverse 0
      if sl ≠ 0 ∧ ns > sl - 1 then .error (.undefinedStateReference num ns)
      else .ok ⟨body.getLastD 0, dir, ns⟩

/-- Decoding of the whole action sequence in order; the second argument
is the running action index, whose half names the owning state in the
out of range error message. -/
def build_actions (sl : Nat) : List (List token × token) → Nat →
    Except ParseError (List action)
  | [], _ => .ok []
  | (body, t) :: rest, ix =>
      match mk_action sl (ix / 2) body t with
      | .error e => .error e
      | .ok a =>
          match build_actions sl rest (ix + 1) with
          | .error e => .error e
          | .ok as => .ok (a :: as)

/-- Pairing of consecutive actions into states: action 2i is the response
of state i to reading 0, action 2i+1 the response to reading 1. -/
def pair_states : List action → Nat → List state
  | a0 :: a1 :: rest, n => ⟨n, a0, a1⟩ :: pair_states rest (n + 1)
  | _, _ => []

/-- The whole codec, mirroring parse_tm: character check, implicit
wrapping, tokenization, the even action count check, action decoding with
target validation, and pairing into states. -/
def parse_tm (tm : List Char) : Except ParseError (List state) :=
  match check_tm_chars tm 0 with
  | .error e => .error e
  | .ok _ =>
      match tokenize (wrap tm) 0 0 with
      | .error e => .error e
      | .ok toks =>
          let actions_len := toks.countP (fun t => decide (2 ≤ t))
          if actions_len % 2 ≠ 0 then .error .incompleteStateDefinition
          else
            match build_actions (actions_len / 2) (segments toks []) 0 with
            | .error e => .error e
            | .ok as => .ok (pair_states as 0)

/-- Run errors of the engine. The fuelExhausted constructor is an
artifact of the fuel recursion and is unreachable at the fuel the
wrappers supply. -/
inductive RunError where
  | invalidTapeChar (ix : Nat)
  | stepLimitExceeded
  | tapeLimitExceeded
  | fuelExhausted
deriving DecidableEq

/-- Tape character check at the top of run. -/
def check_tape_chars : List Char → Nat → Except RunError Unit
  | [], _ => .ok ()
  | c :: rest, ix =>
      if c ≠ '0' ∧ c ≠ '1' then .error (.invalidTapeChar ix)
      else check_tape_chars rest (ix + 1)

/-- Reading the C tape buffer at a possibly out of range index. The C
code only ever reads indices from 0 to the buffer length; reading the
index equal to the length yields the NUL string terminator, which the
model extends to every index at or beyond the materialized window. -/
def tape_read (t : List Char) (i : Int) : Char :=
  if 0 ≤ i then t.getD i.toNat '\x00' else '\x00'

/-- Writing the C tape buffer; out of range writes are dropped, matching
the fact that the defined executions of the C code only write inside the
materialized window. -/
def tape_write (t : List Char) (i : Int) (c : Char) : List Char :=
  if 0 ≤ i then t.set i.toNat c else t

/-- Transition table lookup; the C code follows a pointer that the codec
guarantees to be in range. -/
def get_state (states : List state) (i : Nat) : state :=
  states.getD i dState

/-- The action selection both loops of run perform after reading the
character under the head: the characters 0 and space select action0,
anything else, which in a defined execution can only be the character 1
or the NUL terminator, selects action1. -/
def sel_action (states : List state) (curr : Nat) (c : Char) : action :=
  let st := get_state states curr
  if c = '0' ∨ c = ' ' then st.action0 else st.action1

/-- The character both loops write back: 0 when value_to_write is zero,
1 otherwise. -/
def write_char (a : action) : Char :=
  if a.value_to_write = 0 then '0' else '1'

/-- The mutable locals of the first execution of run. -/
structure Pass1State where
  tape : List Char
  tape_expansion_amt : Nat
  curr : Nat
  tape_ix : Int
  rel_tape_ix : Int
  min_rel : Int
  max_rel : Int
  step : Nat
deriving DecidableEq

/-- The values the first execution leaves behind when the machine stops. -/
structure Pass1Out where
  tape : List Char
  tape_ix : Int
  rel : Int
  min_rel : Int
  max_rel : Int
  steps : Nat
deriving DecidableEq

/-- One iteration of the first while loop of run: limit checks, read,
action selection (a blank or NUL cell selects action0 exactly when the C
comparison with the characters 0 and space does), write, stop test, head
move, window bookkeeping and geometric tape growth. -/
def pass1_step (states : List state) (mtl : Nat) (msteps : Nat)
    (s : Pass1State) : Except RunError (Pass1Out ⊕ Pass1State) :=
  if s.step = msteps then .error .stepLimitExceeded
  else if s.tape.length > mtl then .error .tapeLimitExceeded
  else
    let c := tape_read s.tape s.tape_ix
    let a := sel_action states s.curr c
    let tape := tape_write s.tape s.tape_ix (write_char a)
    if a.direction_to_move = 0 then
      .ok (.inl ⟨tape, s.tape_ix, s.rel_tape_ix, s.min_rel, s.max_rel, s.step + 1⟩)
    else
      let tape_ix := s.tape_ix + a.direction_to_move
      let rel := s.rel_tape_ix + a.direction_to_move
      let min_rel := if rel < s.min_rel then rel else s.min_rel
      let max_rel := if rel > s.max_rel then rel else s.max_rel
      if tape_ix < 0 then
        .ok (.inr ⟨List.replicate s.tape_expansion_amt ' ' ++ tape,
          s.tape_expansion_amt * 2, a.next_state, tape_ix + s.tape_expansion_amt,
          rel, min_rel, max_rel, s.step + 1⟩)
      else if tape_ix = tape.length then
        .ok (.inr ⟨tape ++ List.replicate s.tape_expansion_amt ' ',
          s.tape_expansion_amt * 2, a.next_state, tape_ix,
          rel, min_rel, max_rel, s.step + 1⟩)
      else
        .ok (.inr ⟨tape, s.tape_expansion_amt, a.next_state, tape_ix,
          rel, min_rel, max_rel, s.step + 1⟩)

/-- The first while loop of run, as fuel recursion over pass1_step. -/
def pass1_loop (states : List state) (mtl : Nat) (msteps : Nat) :
    Nat → Pass1State → Except RunError Pass1Out
  | 0, _ => .error .fuelExhausted
  | fuel + 1, s =>
      match pass1_step states mtl msteps s with
      | .error e => .error e
      | .ok (.inl out) => .ok out
      | .ok (.inr s') => pass1_loop states mtl msteps fuel s'

/-- The locals of run just before the first loop starts: the tape is a
copy of the initial tape, the head is at index 0 in state 0, and the
discovery window already spans the whole initial tape. -/
def init1 (tape0 : List Char) : Pass1State :=
  ⟨tape0, 1024, 0, 0, 0, 0, (tape0.length : Int) - 1, 0⟩

/-- The first execution of run: tape character check, then the loop.
Fuel max_steps + 1 is exact, because each iteration either consumes one
of the at most max_steps available steps or fails the step limit check. -/
def run1 (states : List state) (tape0 : List Char) (mtl : Nat) (msteps : Nat) :
    Except RunError Pass1Out :=
  match check_tape_chars tape0 0 with
  | .error e => .error e
  | .ok _ => pass1_loop states mtl msteps (msteps + 1) (init1 tape0)

/-- The verbosity 0 output extraction: the C code truncates the tape one
cell past the head, then walks left from the head over non blank
characters and prints from there. -/
def trim_output (tape : List Char) (ix : Nat) : List Char :=
  ((tape.take (ix + 1)).reverse.takeWhile (fun c => c ≠ ' ')).reverse

/-- The whole verbosity 0 run: the discovery pass followed by the
trimmed output of its final tape at its final head position. -/
def run_v0 (states : List state) (tape0 : List Char) (mtl : Nat)
    (msteps : Nat) : Except RunError (List Char) :=
  match run1 states tape0 mtl msteps with
  | .error e => .error e
  | .ok out => .ok (trim_output out.tape out.tape_ix.toNat)

/-- One trace frame, as handed to print_tape: step number, current state
number, tape snapshot and head index at the moment of emission. -/
structure frame where
  step : Nat
  state_number : Nat
  tape : List Char
  tape_ix : Int
deriving DecidableEq

/-- The mutable locals of the second execution of run. -/
structure Pass2State where
  tape : List Char
  curr : Nat
  tape_ix : Int
  step : Nat
  frames : List frame
deriving DecidableEq

/-- The values the second execution leaves behind. -/
structure Pass2Out where
  tape : List Char
  tape_ix : Int
  steps : Nat
  frames : List frame
deriving DecidableEq

/-- One iteration of the second while loop of run: read, action
selection, write, frame emission at verbosity 2 or on an observable
change, stop test, head move. No limits are checked and the tape never
grows. -/
def pass2_step (states : List state) (verbosity : Nat) (s : Pass2State) :
    Pass2Out ⊕ Pass2State :=
  let step := s.step + 1
  let c := tape_read s.tape s.tape_ix
  let a := sel_action states s.curr c
  let tape := tape_write s.tape s.tape_ix (write_char a)
  let frames :=
    if verbosity = 2 ∨ write_char a ≠ c then
      s.frames ++ [⟨step, s.curr, tape, s.tape_ix⟩]
    else s.frames
  if a.direction_to_move = 0 then .inl ⟨tape, s.tape_ix, step, frames⟩
  else .inr ⟨tape, a.next_state, s.tape_ix + a.direction_to_move, step, frames⟩

/-- The second while loop of run, as fuel recursion over pass2_step. -/
def pass2_loop (states : List state) (verbosity : Nat) :
    Nat → Pass2State → Option Pass2Out
  | 0, _ => none
  | fuel + 1, s =>
      match pass2_step states verbosity s with
      | .inl out => some out
      | .inr s' => pass2_loop states verbosity fuel s'

/-- The C loop that copies the initial tape into the freshly blanked
fixed width tape of pass 2, cell by cell. -/
def copy_into (t : List Char) (o : Nat) : List Char → List Char
  | [] => t
  | c :: cs => copy_into (t.set o c) (o + 1) cs

/-- The locals of run just before the second loop starts: a tape of
exactly the discovered window, all blank except for the initial tape
placed at offset minus min_rel, the head over the cell the run started
on, and the initial frame already emitted. -/
def init2 (tape0 : List Char) (out : Pass1Out) : Pass2State :=
  let flen := (out.max_rel - out.min_rel + 1).toNat
  let ix0 : Int := -out.min_rel
  let t := copy_into (List.replicate flen ' ') ix0.toNat tape0
  ⟨t, 0, ix0, 0, [⟨0, 0, t, ix0⟩]⟩

/-- The second execution of run, started from the discovery results of
the first. -/
def run2 (states : List state) (tape0 : List Char) (out : Pass1Out)
    (verbosity : Nat) (fuel : Nat) : Option Pass2Out :=
  pass2_loop states verbosity fuel (init2 tape0 out)

/-- Identification of an unmaterialized cell with a blank one, used to
compare the contents of the growing pass 1 tape with the fixed pass 2
tape on the discovered window. -/
def blank_norm (c : Char) : Char :=
  if c = '\x00' then ' ' else c

/-- Modelled from the spec: the maximal contiguous non blank substring
of the tape that contains the cell at the given index, the output the
specification describes for a verbosity 0 run. This definition follows
the words of the specification, not the C code, and is compared with
trim_output. -/
def spec_trimmed (tape : List Char) (ix : Nat) : List Char :=
  ((tape.take (ix + 1)).reverse.takeWhile (fun c => c ≠ ' ')).reverse ++
    (tape.drop (ix + 1)).takeWhile (fun c => c ≠ ' ')

/-! ## Basic facts about the tape buffer operations -/

theorem length_tape_write (t : List Char) (i : Int) (c : Char) :
    (tape_write t i c).length = t.length := by
  unfold tape_write
  split <;> simp

theorem tape_read_neg {t : List Char} {i : Int} (h : i < 0) :
    tape_read t i = '\x00' := by
  unfold tape_read
  rw [if_neg (by omega)]

theorem tape_read_eq_getD {t : List Char} {i : Int} (h : 0 ≤ i) :
    tape_read t i = t.getD i.toNat '\x00' := by
  unfold tape_read
  rw [if_pos h]

theorem tape_read_write_self {t : List Char} {i : Int} (c : Char)
    (h0 : 0 ≤ i) (h1 : i < t.length) :
    tape_read (tape_write t i c) i = c := by
  unfold tape_read tape_write
  rw [if_pos h0, if_pos h0, List.getD_eq_getElem?_getD,
    List.getElem?_set_self (by omega)]
  rfl

theorem tape_read_write_ne {t : List Char} {i j : Int} (c : Char)
    (h : j ≠ i) : tape_read (tape_write t i c) j = tape_read t j := by
  unfold tape_read tape_write
  by_cases hj : 0 ≤ j
  · rw [if_pos hj, if_pos hj]
    by_cases hi : 0 ≤ i
    · rw [if_pos hi, List.getD_eq_getElem?_getD, List.getD_eq_getElem?_getD,
        List.getElem?_set_ne (by omega)]
    · rw [if_neg hi]
  · rw [if_neg hj, if_neg hj]

theorem tape_read_mem {t : List Char} {i : Int} (h0 : 0 ≤ i)
    (h1 : i < t.length) : tape_read t i ∈ t := by
  rw [tape_read_eq_getD h0, List.getD_eq_getElem?_getD]
  have hlt : i.toNat < t.length := by omega
  rw [List.getElem?_eq_getElem hlt]
  exact List.getElem_mem hlt

theorem mem_tape_write {t : List Char} {i : Int} {w c : Char}
    (h : c ∈ tape_write t i w) : c ∈ t ∨ c = w := by
  unfold tape_write at h
  split at h
  · exact List.mem_or_eq_of_mem_set h
  · exact Or.inl h

theorem tape_read_append_left {t u : List Char} {i : Int}
    (h : i < t.length) : tape_read (t ++ u) i = tape_read t i := by
  by_cases h0 : 0 ≤ i
  · rw [tape_read_eq_getD h0, tape_read_eq_getD h0,
      List.getD_eq_getElem?_getD, List.getD_eq_getElem?_getD,
      List.getElem?_append_left (by omega)]
  · rw [tape_read_neg (by omega), tape_read_neg (by omega)]

theorem blank_norm_read_append (t : List Char) (n : Nat) (x : Int) :
    blank_norm (tape_read (t ++ List.replicate n ' ') x) =
      blank_norm (tape_read t x) := by
  by_cases h0 : 0 ≤ x
  · by_cases hlt : x < t.length
    · rw [tape_read_append_left hlt]
    · have hR : tape_read t x = '\x00' := by
        rw [tape_read_eq_getD h0, List.getD_eq_getElem?_getD,
          List.getElem?_eq_none (by omega)]
        rfl
      have hL : tape_read (t ++ List.replicate n ' ') x =
          (List.replicate n ' ')[x.toNat - t.length]?.getD '\x00' := by
        rw [tape_read_eq_getD h0, List.getD_eq_getElem?_getD,
          List.getElem?_append_right (by omega)]
      rw [hL, hR, List.getElem?_replicate]
      by_cases hn : x.toNat - t.length < n
      · rw [if_pos hn]
        simp [blank_norm]
      · rw [if_neg hn]
        rfl
  · rw [tape_read_neg (by omega : x < 0),
      tape_read_neg (by omega : x < 0)]

theorem blank_norm_read_prepend (t : List Char) (n : Nat) (x : Int) :
    blank_norm (tape_read (List.replicate n ' ' ++ t) (x + n)) =
      blank_norm (tape_read t x) := by
  by_cases h0 : 0 ≤ x
  · have hL : tape_read (List.replicate n ' ' ++ t) (x + n) =
        t[(x + n).toNat - n]?.getD '\x00' := by
      rw [tape_read_eq_getD (by omega), List.getD_eq_getElem?_getD,
        List.getElem?_append_right (by rw [List.length_replicate]; omega),
        List.length_replicate]
    have harg : (x + n).toNat - n = x.toNat := by omega
    rw [hL, harg, tape_read_eq_getD h0, List.getD_eq_getElem?_getD]
  · have hR : tape_read t x = '\x00' := tape_read_neg (by omega)
    by_cases h1 : 0 ≤ x + n
    · have hL : tape_read (List.replicate n ' ' ++ t) (x + n) =
          (List.replicate n ' ')[(x + n).toNat]?.getD '\x00' := by
        rw [tape_read_eq_getD h1, List.getD_eq_getElem?_getD,
          List.getElem?_append_left (by rw [List.length_replicate]; omega)]
      rw [hL, hR, List.getElem?_replicate, if_pos (by omega)]
      simp [blank_norm]
    · rw [hR, tape_read_neg (by omega : x + (n : Int) < 0)]

/-! ## Case analysis of a single loop iteration -/

theorem pass1_step_inl {states : List state} {mtl msteps : Nat}
    {s : Pass1State} {o : Pass1Out}
    (h : pass1_step states mtl msteps s = .ok (.inl o)) :
    s.step ≠ msteps ∧ ¬ s.tape.length > mtl ∧
      (sel_action states s.curr (tape_read s.tape s.tape_ix)).direction_to_move = 0 ∧
      o = ⟨tape_write s.tape s.tape_ix
            (write_char (sel_action states s.curr (tape_read s.tape s.tape_ix))),
          s.tape_ix, s.rel_tape_ix, s.min_rel, s.max_rel, s.step + 1⟩ := by
  simp only [pass1_step] at h
  split at h
  · simp at h
  · split at h
    · simp at h
    · split at h
      · simp only [Except.ok.injEq, Sum.inl.injEq] at h
        refine ⟨by assumption, by assumption, by assumption, h.symm⟩
      · split at h
        · simp at h
        · split at h <;> simp at h

theorem pass1_step_inr {states : List state} {mtl msteps : Nat}
    {s s' : Pass1State}
    (h : pass1_step states mtl msteps s = .ok (.inr s')) :
    s.step ≠ msteps ∧ ¬ s.tape.length > mtl ∧
      (sel_action states s.curr (tape_read s.tape s.tape_ix)).direction_to_move ≠ 0 ∧
      (let a := sel_action states s.curr (tape_read s.tape s.tape_ix)
       let tp := tape_write s.tape s.tape_ix (write_char a)
       let tix := s.tape_ix + a.direction_to_move
       let rel := s.rel_tape_ix + a.direction_to_move
       s'.curr = a.next_state ∧ s'.step = s.step + 1 ∧
       s'.rel_tape_ix = rel ∧
       s'.min_rel = (if rel < s.min_rel then rel else s.min_rel) ∧
       s'.max_rel = (if rel > s.max_rel then rel else s.max_rel) ∧
       ((tix < 0 ∧
           s'.tape = List.replicate s.tape_expansion_amt ' ' ++ tp ∧
           s'.tape_ix = tix + s.tape_expansion_amt ∧
           s'.tape_expansion_amt = s.tape_expansion_amt * 2) ∨
        (¬ tix < 0 ∧ tix = tp.length ∧
           s'.tape = tp ++ List.replicate s.tape_expansion_amt ' ' ∧
           s'.tape_ix = tix ∧
           s'.tape_expansion_amt = s.tape_expansion_amt * 2) ∨
        (¬ tix < 0 ∧ tix ≠ tp.length ∧
           s'.tape = tp ∧ s'.tape_ix = tix ∧
           s'.tape_expansion_amt = s.tape_expansion_amt))) := by
  simp only [pass1_step] at h
  split at h
  · simp at h
  · split at h
    · simp at h
    · split at h
      · simp at h
      · split at h
        · simp only [Except.ok.injEq, Sum.inr.injEq] at h
          subst h
          refine ⟨by assumption, by assumption, by assumption,
            rfl, rfl, rfl, rfl, rfl, Or.inl ⟨by assumption, rfl, rfl, rfl⟩⟩
        · split at h
          · simp only [Except.ok.injEq, Sum.inr.injEq] at h
            subst h
            refine ⟨by assumption, by assumption, by assumption,
              rfl, rfl, rfl, rfl, rfl,
              Or.inr (Or.inl ⟨by assumption, by assumption, rfl, rfl, rfl⟩)⟩
          · simp only [Except.ok.injEq, Sum.inr.injEq] at h
            subst h
            refine ⟨by assumption, by assumption, by assumption,
              rfl, rfl, rfl, rfl, rfl,
              Or.inr (Or.inr ⟨by assumption, by assumption, rfl, rfl, rfl⟩)⟩

theorem pass2_step_inl {states : List state} {v : Nat}
    {s : Pass2State} {o : Pass2Out}
    (h : pass2_step states v s = .inl o) :
    (sel_action states s.curr (tape_read s.tape s.tape_ix)).direction_to_move = 0 ∧
      o.tape = tape_write s.tape s.tape_ix
        (write_char (sel_action states s.curr (tape_read s.tape s.tape_ix))) ∧
      o.tape_ix = s.tape_ix ∧ o.steps = s.step + 1 := by
  simp only [pass2_step] at h
  split at h
  · simp only [Sum.inl.injEq] at h
    subst h
    exact ⟨by assumption, rfl, rfl, rfl⟩
  · simp at h

theorem pass2_step_inr {states : List state} {v : Nat}
    {s s' : Pass2State}
    (h : pass2_step states v s = .inr s') :
    (sel_action states s.curr (tape_read s.tape s.tape_ix)).direction_to_move ≠ 0 ∧
      (let a := sel_action states s.curr (tape_read s.tape s.tape_ix)
       s'.tape = tape_write s.tape s.tape_ix (write_char a) ∧
       s'.curr = a.next_state ∧
       s'.tape_ix = s.tape_ix + a.direction_to_move ∧
       s'.step = s.step + 1) := by
  simp only [pass2_step] at h
  split at h
  · simp at h
  · simp only [Sum.inr.injEq] at h
    subst h
    exact ⟨by assumption, rfl, rfl, rfl, rfl⟩

/-- Along a successful first pass the discovered window only grows, so
the final window bounds every intermediate one. -/
theorem pass1_loop_mono {states : List state} {mtl msteps : Nat} :
    ∀ {fuel : Nat} {s : Pass1State} {out : Pass1Out},
      pass1_loop states mtl msteps fuel s = .ok out →
      out.min_rel ≤ s.min_rel ∧ s.max_rel ≤ out.max_rel := by
  intro fuel
  induction fuel with
  | zero => intro s out h; simp [pass1_loop] at h
  | succ n ih =>
      intro s out h
      unfold pass1_loop at h
      rcases hstep : pass1_step states mtl msteps s with he | hok
      · rw [hstep] at h; simp at h
      · rcases hok with o | s' <;> rw [hstep] at h
        · simp only [Except.ok.injEq] at h
          subst h
          obtain ⟨-, -, -, ho⟩ := pass1_step_inl hstep
          subst ho
          exact ⟨le_refl _, le_refl _⟩
        · obtain ⟨hm, hM⟩ := ih h
          obtain ⟨-, -, -, -, -, -, hmin, hmax, -⟩ := pass1_step_inr hstep
          constructor
          · refine le_trans hm ?_
            rw [hmin]; split <;> omega
          · refine le_trans ?_ hM
            rw [hmax]; split <;> omega

/-- The transition tables the C engine receives only hold the direction
values minus one, plus one and zero, as the struct action comment in the
source documents; the codec never produces anything else. -/
def dir_ok (states : List state) : Prop :=
  ∀ st ∈ states,
    (st.action0.direction_to_move = -1 ∨ st.action0.direction_to_move = 1 ∨
      st.action0.direction_to_move = 0) ∧
    (st.action1.direction_to_move = -1 ∨ st.action1.direction_to_move = 1 ∨
      st.action1.direction_to_move = 0)

theorem sel_action_dir {states : List state} (h : dir_ok states)
    (curr : Nat) (c : Char) :
    (sel_action states curr c).direction_to_move = -1 ∨
      (sel_action states curr c).direction_to_move = 1 ∨
      (sel_action states curr c).direction_to_move = 0 := by
  unfold sel_action get_state
  by_cases hc : curr < states.length
  · have hmem : states.getD curr dState ∈ states := by
      rw [List.getD_eq_getElem?_getD, List.getElem?_eq_getElem hc]
      exact List.getElem_mem hc
    obtain ⟨h0, h1⟩ := h _ hmem
    split
    · exact h0
    · exact h1
  · rw [List.getD_eq_getElem?_getD, List.getElem?_eq_none (by omega)]
    split
    · exact Or.inr (Or.inr rfl)
    · exact Or.inr (Or.inr rfl)

/-- One continuing iteration of the first pass keeps the head inside the
materialized tape and the expansion amount positive. -/
theorem pass1_step_head {states : List state} {mtl msteps : Nat}
    {s s' : Pass1State} (hdir : dir_ok states)
    (h : pass1_step states mtl msteps s = .ok (.inr s'))
    (h0 : 0 ≤ s.tape_ix) (h1 : s.tape_ix < s.tape.length)
    (ha : 1 ≤ s.tape_expansion_amt) :
    0 ≤ s'.tape_ix ∧ s'.tape_ix < s'.tape.length ∧
      1 ≤ s'.tape_expansion_amt := by
  obtain ⟨-, -, hd0, -, -, -, -, -, hcase⟩ := pass1_step_inr h
  have hd := sel_action_dir hdir s.curr (tape_read s.tape s.tape_ix)
  set a := sel_action states s.curr (tape_read s.tape s.tape_ix) with ha_def
  rcases hcase with ⟨hneg, ht, hix, hamt⟩ | ⟨hge, heq, ht, hix, hamt⟩ |
      ⟨hge, hne, ht, hix, hamt⟩
  · rw [ht, hix]
    simp only [List.length_append, List.length_replicate, length_tape_write]
    rcases hd with hd | hd | hd <;> omega
  · rw [ht, hix, heq]
    simp only [List.length_append, List.length_replicate]
    omega
  · rw [ht, hix]
    rw [length_tape_write] at hne
    simp only [length_tape_write]
    rcases hd with hd | hd | hd <;> omega

/-- A successful first pass that starts with the head inside a non empty
materialized tape ends the same way, with the written character of the
last step, a 0 or a 1, under the head. -/
theorem pass1_loop_final {states : List state} {mtl msteps : Nat}
    (hdir : dir_ok states) :
    ∀ {fuel : Nat} {s : Pass1State} {out : Pass1Out},
      pass1_loop states mtl msteps fuel s = .ok out →
      0 ≤ s.tape_ix → s.tape_ix < s.tape.length → 1 ≤ s.tape_expansion_amt →
      0 ≤ out.tape_ix ∧ out.tape_ix < out.tape.length ∧
        (tape_read out.tape out.tape_ix = '0' ∨
          tape_read out.tape out.tape_ix = '1') := by
  intro fuel
  induction fuel with
  | zero => intro s out h; simp [pass1_loop] at h
  | succ n ih =>
      intro s out h h0 h1 ha
      unfold pass1_loop at h
      rcases hstep : pass1_step states mtl msteps s with he | hok
      · rw [hstep] at h; simp at h
      · rcases hok with o | s' <;> rw [hstep] at h
        · simp only [Except.ok.injEq] at h
          subst h
          obtain ⟨-, -, -, ho⟩ := pass1_step_inl hstep
          subst ho
          refine ⟨h0, by simpa [length_tape_write] using h1, ?_⟩
          rw [tape_read_write_self _ h0 h1]
          unfold write_char
          split
          · exact Or.inl rfl
          · exact Or.inr rfl
        · obtain ⟨g0, g1, g2⟩ := pass1_step_head hdir hstep h0 h1 ha
          exact ih h g0 g1 g2

/-! ## The pass 1 to pass 2 simulation relation -/

theorem write_char_cases (a : action) :
    write_char a = '0' ∨ write_char a = '1' := by
  unfold write_char
  split
  · exact Or.inl rfl
  · exact Or.inr rfl

theorem write_char_ne_null (a : action) : write_char a ≠ '\x00' := by
  rcases write_char_cases a with h | h <;> rw [h] <;> decide

/-- The relation between the state of the growing discovery pass and the
state of the fixed width trace pass, relative to the final window from m
to M discovered by pass 1: same control state and step count, the heads
over the same relative cell, the pass 2 tape exactly the window, the
pass 1 head inside its materialized tape, the running window bracketing
the head, only tape characters the program stores, and cell by cell
agreement on the window once unmaterialized pass 1 cells are read as
blanks. -/
structure SimInv (states : List state) (m M : Int)
    (s1 : Pass1State) (s2 : Pass2State) : Prop where
  curr_eq : s2.curr = s1.curr
  step_eq : s2.step = s1.step
  ix2_eq : s2.tape_ix = s1.rel_tape_ix - m
  len2 : s2.tape.length = (M - m + 1).toNat
  ix1_lb : 0 ≤ s1.tape_ix
  ix1_ub : s1.tape_ix < s1.tape.length
  amt_pos : 1 ≤ s1.tape_expansion_amt
  rel_lb : s1.min_rel ≤ s1.rel_tape_ix
  rel_ub : s1.rel_tape_ix ≤ s1.max_rel
  chars1 : ∀ c ∈ s1.tape, c = '0' ∨ c = '1' ∨ c = ' '
  chars2 : ∀ c ∈ s2.tape, c = '0' ∨ c = '1' ∨ c = ' '
  corr : ∀ r : Int, m ≤ r → r ≤ M →
    blank_norm (tape_read s1.tape (r + (s1.tape_ix - s1.rel_tape_ix))) =
      tape_read s2.tape (r - m)

theorem SimInv.head1_ne_null {states : List state} {m M : Int}
    {s1 : Pass1State} {s2 : Pass2State} (inv : SimInv states m M s1 s2) :
    tape_read s1.tape s1.tape_ix ≠ '\x00' := by
  have hmem := tape_read_mem inv.ix1_lb inv.ix1_ub
  rcases inv.chars1 _ hmem with h | h | h <;> rw [h] <;> decide

/-- Both heads read the same character whenever the running window lies
inside the final one. -/
theorem SimInv.head_eq {states : List state} {m M : Int}
    {s1 : Pass1State} {s2 : Pass2State} (inv : SimInv states m M s1 s2)
    (hm : m ≤ s1.min_rel) (hM : s1.max_rel ≤ M) :
    tape_read s2.tape s2.tape_ix = tape_read s1.tape s1.tape_ix := by
  have h := inv.corr s1.rel_tape_ix (le_trans hm inv.rel_lb)
    (le_trans inv.rel_ub hM)
  have harg : s1.rel_tape_ix + (s1.tape_ix - s1.rel_tape_ix) = s1.tape_ix := by
    ring
  rw [harg] at h
  rw [inv.ix2_eq, ← h]
  unfold blank_norm
  rw [if_neg inv.head1_ne_null]

theorem SimInv.ix2_lb {states : List state} {m M : Int}
    {s1 : Pass1State} {s2 : Pass2State} (inv : SimInv states m M s1 s2)
    (hm : m ≤ s1.min_rel) : 0 ≤ s2.tape_ix := by
  have := inv.rel_lb
  rw [inv.ix2_eq]; omega

theorem SimInv.ix2_ub {states : List state} {m M : Int}
    {s1 : Pass1State} {s2 : Pass2State} (inv : SimInv states m M s1 s2)
    (hm : m ≤ s1.min_rel) (hM : s1.max_rel ≤ M) :
    s2.tape_ix < s2.tape.length := by
  have h1 := inv.rel_lb
  have h2 := inv.rel_ub
  rw [inv.ix2_eq, inv.len2]; omega

/-- Writing the same character under both heads preserves the cell by
cell agreement on the window. -/
theorem SimInv.corr_write {states : List state} {m M : Int}
    {s1 : Pass1State} {s2 : Pass2State} (inv : SimInv states m M s1 s2)
    (hm : m ≤ s1.min_rel) (hM : s1.max_rel ≤ M) {w : Char}
    (hw : w ≠ '\x00') :
    ∀ r : Int, m ≤ r → r ≤ M →
      blank_norm (tape_read (tape_write s1.tape s1.tape_ix w)
          (r + (s1.tape_ix - s1.rel_tape_ix))) =
        tape_read (tape_write s2.tape s2.tape_ix w) (r - m) := by
  intro r hr0 hr1
  by_cases hr : r = s1.rel_tape_ix
  · subst hr
    have harg : s1.rel_tape_ix + (s1.tape_ix - s1.rel_tape_ix) = s1.tape_ix := by
      ring
    rw [harg, tape_read_write_self _ inv.ix1_lb inv.ix1_ub]
    have hix2 : s1.rel_tape_ix - m = s2.tape_ix := (inv.ix2_eq).symm
    rw [hix2, tape_read_write_self _ (inv.ix2_lb hm) (inv.ix2_ub hm hM)]
    unfold blank_norm
    rw [if_neg hw]
  · rw [tape_read_write_ne _ (by omega), tape_read_write_ne _
      (by rw [inv.ix2_eq]; omega)]
    exact inv.corr r hr0 hr1

/-! ## The initial tape copy of pass 2 -/

theorem copy_into_length : ∀ (l : List Char) (t : List Char) (o : Nat),
    (copy_into t o l).length = t.length
  | [], _, _ => rfl
  | c :: cs, t, o => by
      unfold copy_into
      rw [copy_into_length cs, List.length_set]

theorem mem_copy_into : ∀ {l : List Char} {t : List Char} {o : Nat}
    {c : Char}, c ∈ copy_into t o l → c ∈ t ∨ c ∈ l := by
  intro l
  induction l with
  | nil => intro t o c h; exact Or.inl h
  | cons x xs ih =>
      intro t o c h
      unfold copy_into at h
      rcases ih h with h2 | h2
      · rcases List.mem_or_eq_of_mem_set h2 with h3 | h3
        · exact Or.inl h3
        · exact Or.inr (h3 ▸ List.mem_cons_self x xs)
      · exact Or.inr (List.mem_cons_of_mem x h2)

theorem copy_into_getElem? :
    ∀ (l : List Char) (t : List Char) (o : Nat), o + l.length ≤ t.length →
      ∀ j : Nat, (copy_into t o l)[j]? =
        if o ≤ j ∧ j < o + l.length then l[j - o]? else t[j]?
  | [], t, o, _, j => by
      rw [if_neg (by simp only [List.length_nil]; omega)]
      rfl
  | c :: cs, t, o, hb, j => by
      unfold copy_into
      rw [copy_into_getElem? cs (t.set o c) (o + 1)
        (by rw [List.length_set]; simp at hb ⊢; omega) j]
      by_cases h1 : o + 1 ≤ j ∧ j < o + 1 + cs.length
      · rw [if_pos h1, if_pos (by simp; omega)]
        have hj : j - o = (j - (o + 1)) + 1 := by omega
        rw [hj, List.getElem?_cons_succ]
      · rw [if_neg h1]
        by_cases h2 : o ≤ j ∧ j < o + (c :: cs).length
        · have hj : j = o := by simp at h2; omega
          subst hj
          rw [if_pos h2, List.getElem?_set_self (by simp at hb; omega)]
          simp
        · rw [if_neg h2, List.getElem?_set_ne (by simp at h1 h2; omega)]

/-! ## Lockstep simulation of pass 2 by pass 1 -/

theorem sim_step_inl {states : List state} {mtl msteps v : Nat} {m M : Int}
    {s1 : Pass1State} {s2 : Pass2State} {o : Pass1Out}
    (inv : SimInv states m M s1 s2)
    (h : pass1_step states mtl msteps s1 = .ok (.inl o))
    (hm : m ≤ s1.min_rel) (hM : s1.max_rel ≤ M) :
    ∃ o2, pass2_step states v s2 = .inl o2 ∧ o2.tape_ix = o.rel - m ∧
      o2.steps = o.steps ∧
      ∀ r : Int, m ≤ r → r ≤ M →
        blank_norm (tape_read o.tape (r + (o.tape_ix - o.rel))) =
          tape_read o2.tape (r - m) := by
  obtain ⟨-, -, hd0, ho⟩ := pass1_step_inl h
  have hceq := inv.head_eq hm hM
  have hsel2 : sel_action states s2.curr (tape_read s2.tape s2.tape_ix) =
      sel_action states s1.curr (tape_read s1.tape s1.tape_ix) := by
    rw [inv.curr_eq, hceq]
  rcases hpse : pass2_step states v s2 with o2 | s2'
  · obtain ⟨-, ht2, hix2, hstp2⟩ := pass2_step_inl hpse
    rw [hsel2] at ht2
    refine ⟨o2, rfl, ?_, ?_, ?_⟩
    · rw [hix2, inv.ix2_eq, ho]
    · rw [hstp2, inv.step_eq, ho]
    · intro r h0 h1
      rw [ho, ht2]
      exact inv.corr_write hm hM (write_char_ne_null _) r h0 h1
  · exfalso
    obtain ⟨hz, -⟩ := pass2_step_inr hpse
    rw [hsel2] at hz
    exact hz hd0

theorem sim_step_inr {states : List state} {mtl msteps v : Nat} {m M : Int}
    {s1 s1' : Pass1State} {s2 : Pass2State} (hdir : dir_ok states)
    (inv : SimInv states m M s1 s2)
    (h : pass1_step states mtl msteps s1 = .ok (.inr s1'))
    (hm : m ≤ s1'.min_rel) (hM : s1'.max_rel ≤ M) :
    ∃ s2', pass2_step states v s2 = .inr s2' ∧ SimInv states m M s1' s2' := by
  obtain ⟨-, -, hd0, hcurr, hstp, hrel, hmin, hmax, hcase⟩ := pass1_step_inr h
  have hm1 : m ≤ s1.min_rel := by rw [hmin] at hm; split at hm <;> omega
  have hM1 : s1.max_rel ≤ M := by rw [hmax] at hM; split at hM <;> omega
  have hceq := inv.head_eq hm1 hM1
  have hsel2 : sel_action states s2.curr (tape_read s2.tape s2.tape_ix) =
      sel_action states s1.curr (tape_read s1.tape s1.tape_ix) := by
    rw [inv.curr_eq, hceq]
  have hbounds := pass1_step_head hdir h inv.ix1_lb inv.ix1_ub inv.amt_pos
  have hrel_lb : s1'.min_rel ≤ s1'.rel_tape_ix := by
    rw [hmin, hrel]; split <;> omega
  have hrel_ub : s1'.rel_tape_ix ≤ s1'.max_rel := by
    rw [hmax, hrel]; split <;> omega
  have htp : ∀ ch ∈ tape_write s1.tape s1.tape_ix
      (write_char (sel_action states s1.curr (tape_read s1.tape s1.tape_ix))),
      ch = '0' ∨ ch = '1' ∨ ch = ' ' := by
    intro ch hch
    rcases mem_tape_write hch with hh | hh
    · exact inv.chars1 _ hh
    · rcases write_char_cases
        (sel_action states s1.curr (tape_read s1.tape s1.tape_ix)) with hw | hw
      · exact Or.inl (hh.trans hw)
      · exact Or.inr (Or.inl (hh.trans hw))
  have hcw := inv.corr_write hm1 hM1 (write_char_ne_null
    (sel_action states s1.curr (tape_read s1.tape s1.tape_ix)))
  rcases hpse : pass2_step states v s2 with o2 | s2'
  · exfalso
    obtain ⟨hz, -⟩ := pass2_step_inl hpse
    rw [hsel2] at hz
    exact hd0 hz
  · obtain ⟨-, ht2, hcurr2, hix2, hstp2⟩ := pass2_step_inr hpse
    rw [hsel2] at ht2 hcurr2 hix2
    refine ⟨s2', rfl, ?_⟩
    have hchars2 : ∀ ch ∈ s2'.tape, ch = '0' ∨ ch = '1' ∨ ch = ' ' := by
      rw [ht2]
      intro ch hch
      rcases mem_tape_write hch with hh | hh
      · exact inv.chars2 _ hh
      · rcases write_char_cases
          (sel_action states s1.curr (tape_read s1.tape s1.tape_ix)) with hw | hw
        · exact Or.inl (hh.trans hw)
        · exact Or.inr (Or.inl (hh.trans hw))
    rcases hcase with ⟨hneg, ht', hix', hamt'⟩ | ⟨hge, heq', ht', hix', hamt'⟩ |
        ⟨hge, hne', ht', hix', hamt'⟩
    · -- the head moved off the left end and the tape grew to the left
      refine ⟨?_, ?_, ?_, ?_, hbounds.1, hbounds.2.1, hbounds.2.2, hrel_lb,
        hrel_ub, ?_, hchars2, ?_⟩
      · rw [hcurr2, hcurr]
      · rw [hstp2, inv.step_eq, hstp]
      · rw [hix2, inv.ix2_eq, hrel]; ring
      · rw [ht2, length_tape_write, inv.len2]
      · rw [ht']
        intro ch hch
        rcases List.mem_append.mp hch with hh | hh
        · exact Or.inr (Or.inr (List.eq_of_mem_replicate hh))
        · exact htp ch hh
      · intro r h0 h1
        have harg : r + (s1'.tape_ix - s1'.rel_tape_ix) =
            (r + (s1.tape_ix - s1.rel_tape_ix)) + (s1.tape_expansion_amt : Int) := by
          rw [hix', hrel]; ring
        rw [ht', ht2, harg, blank_norm_read_prepend]
        exact hcw r h0 h1
    · -- the head moved off the right end and the tape grew to the right
      refine ⟨?_, ?_, ?_, ?_, hbounds.1, hbounds.2.1, hbounds.2.2, hrel_lb,
        hrel_ub, ?_, hchars2, ?_⟩
      · rw [hcurr2, hcurr]
      · rw [hstp2, inv.step_eq, hstp]
      · rw [hix2, inv.ix2_eq, hrel]; ring
      · rw [ht2, length_tape_write, inv.len2]
      · rw [ht']
        intro ch hch
        rcases List.mem_append.mp hch with hh | hh
        · exact htp ch hh
        · exact Or.inr (Or.inr (List.eq_of_mem_replicate hh))
      · intro r h0 h1
        have harg : r + (s1'.tape_ix - s1'.rel_tape_ix) =
            r + (s1.tape_ix - s1.rel_tape_ix) := by
          rw [hix', hrel]; ring
        rw [ht', ht2, harg, blank_norm_read_append]
        exact hcw r h0 h1
    · -- the head stayed inside the materialized tape
      refine ⟨?_, ?_, ?_, ?_, hbounds.1, hbounds.2.1, hbounds.2.2, hrel_lb,
        hrel_ub, ?_, hchars2, ?_⟩
      · rw [hcurr2, hcurr]
      · rw [hstp2, inv.step_eq, hstp]
      · rw [hix2, inv.ix2_eq, hrel]; ring
      · rw [ht2, length_tape_write, inv.len2]
      · rw [ht']
        exact htp
      · intro r h0 h1
        have harg : r + (s1'.tape_ix - s1'.rel_tape_ix) =
            r + (s1.tape_ix - s1.rel_tape_ix) := by
          rw [hix', hrel]; ring
        rw [ht', ht2, harg]
        exact hcw r h0 h1

/-- Lockstep simulation: a successful first pass whose final discovered
window is the interval from m to M is reproduced exactly by the second
pass run from any state related by the invariant, with the same number
of steps, the head on the same relative cell, and the same window
contents. -/
theorem sim_loop {states : List state} {mtl msteps v : Nat}
    (hdir : dir_ok states) :
    ∀ {fuel : Nat} {s1 : Pass1State} {s2 : Pass2State} {out : Pass1Out},
      pass1_loop states mtl msteps fuel s1 = .ok out →
      SimInv states out.min_rel out.max_rel s1 s2 →
      ∃ out2, pass2_loop states v fuel s2 = some out2 ∧
        out2.tape_ix = out.rel - out.min_rel ∧ out2.steps = out.steps ∧
        ∀ r : Int, out.min_rel ≤ r → r ≤ out.max_rel →
          blank_norm (tape_read out.tape (r + (out.tape_ix - out.rel))) =
            tape_read out2.tape (r - out.min_rel) := by
  intro fuel
  induction fuel with
  | zero => intro s1 s2 out h inv; simp [pass1_loop] at h
  | succ n ih =>
      intro s1 s2 out h inv
      unfold pass1_loop at h
      rcases hstep : pass1_step states mtl msteps s1 with he | hok
      · rw [hstep] at h; simp at h
      · rcases hok with o | s1' <;> rw [hstep] at h
        · simp only [Except.ok.injEq] at h
          subst h
          obtain ⟨-, -, -, ho⟩ := pass1_step_inl hstep
          have hm : o.min_rel ≤ s1.min_rel := le_of_eq (by rw [ho])
          have hM : s1.max_rel ≤ o.max_rel := le_of_eq (by rw [ho])
          obtain ⟨o2, hp2, g1, g2, g3⟩ := sim_step_inl inv hstep hm hM
          refine ⟨o2, ?_, g1, g2, g3⟩
          unfold pass2_loop
          rw [hp2]
        · obtain ⟨hm, hM⟩ := pass1_loop_mono h
          obtain ⟨s2', hp2, inv'⟩ := sim_step_inr hdir inv hstep hm hM
          obtain ⟨out2, hloop2, g1, g2, g3⟩ := ih h inv'
          refine ⟨out2, ?_, g1, g2, g3⟩
          unfold pass2_loop
          rw [hp2]
          exact hloop2

theorem check_tape_chars_ok : ∀ (l : List Char) (ix : Nat),
    check_tape_chars l ix = .ok () → ∀ c ∈ l, c = '0' ∨ c = '1'
  | [], _, _ => by intro c hc; simp at hc
  | c :: rest, ix, h => by
      unfold check_tape_chars at h
      split at h
      · simp at h
      · rename_i hcond
        simp only [not_and_or, not_not] at hcond
        intro d hd
        rcases List.mem_cons.mp hd with hd | hd
        · subst hd
          exact hcond
        · exact check_tape_chars_ok rest (ix + 1) h d hd

/-- The simulation invariant holds between the initial states of the two
passes, for any final window of a run that starts from the initial pass 1
state: such a window reaches at least from some nonpositive m to at least
the last cell of the initial tape. -/
theorem sim_init {states : List state} {tape0 : List Char} {out : Pass1Out}
    (hne : tape0 ≠ []) (hchars : ∀ c ∈ tape0, c = '0' ∨ c = '1')
    (hm : out.min_rel ≤ 0) (hM : (tape0.length : Int) - 1 ≤ out.max_rel) :
    SimInv states out.min_rel out.max_rel (init1 tape0) (init2 tape0 out) := by
  have hlen0 : 1 ≤ tape0.length := List.length_pos.mpr hne
  have hb : (-out.min_rel).toNat + tape0.length ≤
      (List.replicate (out.max_rel - out.min_rel + 1).toNat ' ').length := by
    rw [List.length_replicate]; omega
  refine ⟨rfl, rfl, ?_, ?_, ?_, ?_, ?_, ?_, ?_, ?_, ?_, ?_⟩
  · simp only [init1, init2]
    omega
  · simp only [init2]
    rw [copy_into_length, List.length_replicate]
  · simp only [init1]
    omega
  · simp only [init1]
    omega
  · simp only [init1]
    omega
  · simp only [init1]
    omega
  · simp only [init1]
    omega
  · simp only [init1]
    intro c hc
    rcases hchars c hc with h | h
    · exact Or.inl h
    · exact Or.inr (Or.inl h)
  · simp only [init2]
    intro c hc
    rcases mem_copy_into hc with h | h
    · exact Or.inr (Or.inr (List.eq_of_mem_replicate h))
    · rcases hchars c h with h2 | h2
      · exact Or.inl h2
      · exact Or.inr (Or.inl h2)
  · intro r h0 h1
    simp only [init1, init2]
    have hr0 : r + ((0 : Int) - 0) = r := by ring
    rw [hr0, tape_read_eq_getD (by omega : (0 : Int) ≤ r - out.min_rel),
      List.getD_eq_getElem?_getD,
      copy_into_getElem? tape0 _ (-out.min_rel).toNat hb]
    by_cases hcase : (-out.min_rel).toNat ≤ (r - out.min_rel).toNat ∧
        (r - out.min_rel).toNat < (-out.min_rel).toNat + tape0.length
    · rw [if_pos hcase]
      have hrpos : 0 ≤ r := by omega
      have hrlt : r.toNat < tape0.length := by omega
      have harg : (r - out.min_rel).toNat - (-out.min_rel).toNat = r.toNat := by
        omega
      rw [harg, tape_read_eq_getD hrpos, List.getD_eq_getElem?_getD,
        List.getElem?_eq_getElem hrlt]
      have hch := hchars _ (List.getElem_mem hrlt)
      have hnn : tape0[r.toNat] ≠ '\x00' := by
        rcases hch with h | h <;> rw [h] <;> decide
      unfold blank_norm
      simp only [Option.getD_some]
      rw [if_neg hnn]
    · rw [if_neg hcase]
      have hx : tape_read tape0 r = '\x00' := by
        by_cases hr : 0 ≤ r
        · rw [tape_read_eq_getD hr, List.getD_eq_getElem?_getD,
            List.getElem?_eq_none (by omega)]
          rfl
        · exact tape_read_neg (by omega)
      rw [hx, List.getElem?_replicate, if_pos (by omega)]
      rfl

theorem tape_read_prepend (t : List Char) (n : Nat) {x : Int} (hx : 0 ≤ x) :
    tape_read (List.replicate n ' ' ++ t) (x + n) = tape_read t x := by
  rw [tape_read_eq_getD (by omega), tape_read_eq_getD hx,
    List.getD_eq_getElem?_getD, List.getD_eq_getElem?_getD,
    List.getElem?_append_right (by rw [List.length_replicate]; omega),
    List.length_replicate]
  have harg : (x + n).toNat - n = x.toNat := by omega
  rw [harg]

theorem pass1_step_error {states : List state} {mtl msteps : Nat}
    {s : Pass1State} {e : RunError}
    (h : pass1_step states mtl msteps s = .error e) :
    (s.step = msteps ∧ e = .stepLimitExceeded) ∨
      (s.step ≠ msteps ∧ s.tape.length > mtl ∧ e = .tapeLimitExceeded) := by
  simp only [pass1_step] at h
  split at h
  · simp only [Except.error.injEq] at h
    exact Or.inl ⟨by assumption, h.symm⟩
  · split at h
    · simp only [Except.error.injEq] at h
      exact Or.inr ⟨by assumption, by assumption, h.symm⟩
    · split at h
      · simp at h
      · split at h
        · simp at h
        · split at h <;> simp at h

theorem pass1_step_steplimit {states : List state} {mtl msteps : Nat}
    {s : Pass1State} (hs : s.step = msteps) :
    pass1_step states mtl msteps s = .error .stepLimitExceeded := by
  unfold pass1_step
  rw [if_pos hs]

theorem pass1_step_tapelimit {states : List state} {mtl msteps : Nat}
    {s : Pass1State} (hs : s.step ≠ msteps) (ht : s.tape.length > mtl) :
    pass1_step states mtl msteps s = .error .tapeLimitExceeded := by
  unfold pass1_step
  rw [if_neg hs, if_pos ht]

/-! ## Claims about the execution engine -/

/-- C5: for every machine that halts within the step and tape limits on
a non empty tape, the traced re-run of pass 2 reproduces the silent
discovery pass exactly: it takes the same number of steps, ends with its
head on the same relative cell, translated by the window origin minus
min_rel, and its final tape agrees cell by cell with the final pass 1
tape on the whole discovered window once unmaterialized pass 1 cells are
read as blanks, which ignores exactly the discovery-only part of the
pass 1 tape. Both passes are functions of the table and the tape, hence
deterministic. -/
theorem pass_equivalence_c5 (states : List state) (tape0 : List Char)
    (mtl msteps v : Nat) (out : Pass1Out)
    (hdir : dir_ok states) (hne : tape0 ≠ [])
    (h : run1 states tape0 mtl msteps = .ok out) :
    ∃ out2, run2 states tape0 out v (msteps + 1) = some out2 ∧
      out2.tape_ix = out.rel - out.min_rel ∧
      out2.steps = out.steps ∧
      ∀ r : Int, out.min_rel ≤ r → r ≤ out.max_rel →
        blank_norm (tape_read out.tape (r + (out.tape_ix - out.rel))) =
          tape_read out2.tape (r - out.min_rel) := by
  unfold run1 at h
  rcases hchk : check_tape_chars tape0 0 with e | u
  · rw [hchk] at h
    simp at h
  · rw [hchk] at h
    cases u
    have hchars := check_tape_chars_ok tape0 0 hchk
    have hloop : pass1_loop states mtl msteps (msteps + 1) (init1 tape0) =
        .ok out := h
    have hmono := pass1_loop_mono hloop
    have hm : out.min_rel ≤ 0 := by
      have := hmono.1
      simp only [init1] at this
      exact this
    have hM : (tape0.length : Int) - 1 ≤ out.max_rel := by
      have := hmono.2
      simp only [init1] at this
      exact this
    exact sim_loop hdir hloop (sim_init hne hchars hm hM)

/-- A concrete example table: one state that writes its input back,
moves right over a 0 and stops on a 1. It is the table parse_tm returns
for the specification 1011. -/
def tbl1 : List state := [⟨0, ⟨0, 1, 0⟩, ⟨1, 0, 0⟩⟩]

theorem pass_equivalence_c5_witness :
    dir_ok tbl1 ∧ (['0', '1'] : List Char) ≠ [] ∧
      run1 tbl1 ['0', '1'] 10 5 = .ok ⟨['0', '1'], 1, 1, 0, 1, 2⟩ ∧
      (∃ out2, run2 tbl1 ['0', '1'] ⟨['0', '1'], 1, 1, 0, 1, 2⟩ 1 6 =
          some out2 ∧
        out2.tape_ix = (⟨['0', '1'], 1, 1, 0, 1, 2⟩ : Pass1Out).rel -
          (⟨['0', '1'], 1, 1, 0, 1, 2⟩ : Pass1Out).min_rel ∧
        out2.steps = (⟨['0', '1'], 1, 1, 0, 1, 2⟩ : Pass1Out).steps ∧
        ∀ r : Int, (⟨['0', '1'], 1, 1, 0, 1, 2⟩ : Pass1Out).min_rel ≤ r →
          r ≤ (⟨['0', '1'], 1, 1, 0, 1, 2⟩ : Pass1Out).max_rel →
          blank_norm (tape_read (⟨['0', '1'], 1, 1, 0, 1, 2⟩ : Pass1Out).tape
              (r + ((⟨['0', '1'], 1, 1, 0, 1, 2⟩ : Pass1Out).tape_ix -
                (⟨['0', '1'], 1, 1, 0, 1, 2⟩ : Pass1Out).rel))) =
            tape_read out2.tape
              (r - (⟨['0', '1'], 1, 1, 0, 1, 2⟩ : Pass1Out).min_rel)) :=
  ⟨by unfold dir_ok; decide, by decide, by decide,
    pass_equivalence_c5 tbl1 ['0', '1'] 10 5 1 ⟨['0', '1'], 1, 1, 0, 1, 2⟩
      (by unfold dir_ok; decide) (by decide) (by decide)⟩

/-- C6: before each simulation step the first pass fails with the step
limit error when the step counter has reached max_steps, and, the step
counter check passed, with the tape limit error when the materialized
tape is longer than max_tape_len; and with max_steps one, a machine
whose first selected action does not stop fails with the step limit
error exactly after step one. -/
theorem limit_checks_c6 :
    (∀ (states : List state) (mtl msteps : Nat) (s : Pass1State),
      s.step = msteps →
      pass1_step states mtl msteps s = .error .stepLimitExceeded) ∧
    (∀ (states : List state) (mtl msteps : Nat) (s : Pass1State),
      s.step ≠ msteps → s.tape.length > mtl →
      pass1_step states mtl msteps s = .error .tapeLimitExceeded) ∧
    (∀ (states : List state) (tape0 : List Char) (mtl : Nat),
      check_tape_chars tape0 0 = .ok () → tape0.length ≤ mtl →
      (sel_action states 0 (tape_read tape0 0)).direction_to_move ≠ 0 →
      run1 states tape0 mtl 1 = .error .stepLimitExceeded) := by
  refine ⟨fun states mtl msteps s hs => pass1_step_steplimit hs,
    fun states mtl msteps s hs ht => pass1_step_tapelimit hs ht, ?_⟩
  intro states tape0 mtl hchk hlen hd
  unfold run1
  rw [hchk]
  show pass1_loop states mtl 1 2 (init1 tape0) = .error .stepLimitExceeded
  unfold pass1_loop
  rcases hstep : pass1_step states mtl 1 (init1 tape0) with e | hok
  · rcases pass1_step_error hstep with ⟨h1, h2⟩ | ⟨h1, h2, h3⟩
    · simp only [init1] at h1
      omega
    · simp only [init1] at h2
      omega
  · rcases hok with o | s'
    · obtain ⟨-, -, hz, -⟩ := pass1_step_inl hstep
      simp only [init1] at hz
      exact absurd hz hd
    · obtain ⟨-, -, -, -, hstp, -⟩ := pass1_step_inr hstep
      simp only [init1] at hstp
      unfold pass1_loop
      rw [pass1_step_steplimit (by omega)]

theorem limit_checks_c6_witness :
    pass1_step tbl1 10 5 ⟨['0'], 1024, 0, 0, 0, 0, 0, 5⟩ =
        .error .stepLimitExceeded ∧
      pass1_step tbl1 0 5 ⟨['0'], 1024, 0, 0, 0, 0, 0, 2⟩ =
        .error .tapeLimitExceeded ∧
      run1 tbl1 ['0'] 10 1 = .error .stepLimitExceeded :=
  ⟨limit_checks_c6.1 tbl1 10 5 _ (by decide),
    limit_checks_c6.2.1 tbl1 0 5 _ (by decide) (by decide),
    limit_checks_c6.2.2 tbl1 ['0'] 10 (by decide) (by decide) (by decide)⟩

/-- C8, code bug evidence: on the empty initial tape, which the engine
accepts, the first read is at head position 0 with a materialized window
of length zero, so the claim requires a Blank, selecting action0; the C
code instead reads the NUL string terminator of the empty buffer, which
is neither the character 0 nor a space, and therefore selects action1.
With the table parse_tm returns for the specification 1011, whose state
0 moves right on 0 or Blank and stops on 1, the engine consequently
stops after one step on the empty tape, while on a tape holding an
explicit 0, and hence also on the Blank the claim prescribes, it would
run past step one into the step limit. -/
theorem blank_read_c8 :
    parse_tm ['1', '0', '1', '1'] = .ok tbl1 ∧
      tape_read ([] : List Char) 0 = '\x00' ∧
      sel_action tbl1 0 '\x00' = (get_state tbl1 0).action1 ∧
      sel_action tbl1 0 ' ' = (get_state tbl1 0).action0 ∧
      run1 tbl1 [] 100 2 = .ok ⟨[], 0, 0, 0, -1, 1⟩ ∧
      run1 tbl1 ['0', '0'] 100 2 = .error .stepLimitExceeded := by
  refine ⟨by decide, by decide, by decide, by decide, by decide, by decide⟩

/-- The left trimming at the heart of the verbosity 0 output: dropping
the reversed longest non blank suffix is dropping everything up to and
including the last blank. -/
theorem trim_core_spec (p : List Char) :
    ∃ k, k ≤ p.length ∧
      (p.reverse.takeWhile (fun c => c ≠ ' ')).reverse = p.drop k ∧
      (∀ c ∈ p.drop k, c ≠ ' ') ∧
      (k = 0 ∨ p.getD (k - 1) ' ' = ' ') ∧
      (p.getLastD ' ' ≠ ' ' → k < p.length) := by
  induction p using List.reverseRecOn with
  | nil =>
      refine ⟨0, le_refl _, by decide, by decide, Or.inl rfl, ?_⟩
      intro hc
      exact absurd rfl hc
  | append_singleton ys y ih =>
      obtain ⟨k, hk, htrim, hblank, hmax, -⟩ := ih
      by_cases hy : y = ' '
      · refine ⟨ys.length + 1, by simp, ?_, ?_, ?_, ?_⟩
        · rw [List.reverse_concat, List.takeWhile_cons,
            if_neg (by simp [hy]), List.drop_eq_nil_iff.mpr (by simp)]
          rfl
        · rw [List.drop_eq_nil_iff.mpr (by simp)]
          intro c hc
          simp at hc
        · refine Or.inr ?_
          have : ys.length + 1 - 1 = ys.length := by omega
          rw [this, List.getD_eq_getElem?_getD, List.getElem?_concat_length]
          exact hy
        · intro hc
          rw [List.getLastD_eq_getLast?, List.getLast?_concat] at hc
          exact absurd hy hc
      · refine ⟨k, by simp; omega, ?_, ?_, ?_, ?_⟩
        · rw [List.reverse_concat, List.takeWhile_cons, if_pos (by simp [hy]),
            List.reverse_cons, htrim, List.drop_append_eq_append_drop,
            Nat.sub_eq_zero_of_le hk, List.drop_zero]
        · intro c hc
          rw [List.drop_append_eq_append_drop, Nat.sub_eq_zero_of_le hk,
            List.drop_zero] at hc
          rcases List.mem_append.mp hc with hc | hc
          · exact hblank c hc
          · rw [List.mem_singleton.mp hc]
            exact hy
        · rcases Nat.eq_zero_or_pos k with hk0 | hkpos
          · exact Or.inl hk0
          · rcases hmax with h0 | hblast
            · exact Or.inl h0
            · refine Or.inr ?_
              rw [List.getD_eq_getElem?_getD,
                List.getElem?_append_left (by omega),
                ← List.getD_eq_getElem?_getD]
              exact hblast
        · intro hc
          simp
          omega

theorem getLastD_take {l : List Char} {n : Nat} (h : n < l.length) :
    (l.take (n + 1)).getLastD ' ' = l.getD n ' ' := by
  rw [List.getLastD_eq_getLast?, List.getLast?_eq_getElem?, List.length_take]
  have hmin : (n + 1) ⊓ l.length = n + 1 := by omega
  rw [hmin, Nat.add_sub_cancel, List.getElem?_take, if_pos (by omega),
    List.getD_eq_getElem?_getD]

/-- C3, corrected: for every halting run with verbosity 0 on a non empty
tape, the printed line is the maximal contiguous non blank substring of
the final tape that ends at the final head position: everything to the
right of the head is discarded, the output runs from just after the last
blank at or before the head up to the head, it is non empty, blank free,
and cannot be extended one cell to the left. -/
theorem trimmed_output_c3 (states : List state) (tape0 : List Char)
    (mtl msteps : Nat) (out : Pass1Out) (hdir : dir_ok states)
    (hne : tape0 ≠ []) (h : run1 states tape0 mtl msteps = .ok out) :
    ∃ l k, run_v0 states tape0 mtl msteps = .ok l ∧
      l = (out.tape.take (out.tape_ix.toNat + 1)).drop k ∧
      k ≤ out.tape_ix.toNat ∧ l ≠ [] ∧
      (∀ c ∈ l, c ≠ ' ') ∧
      (k = 0 ∨ out.tape.getD (k - 1) ' ' = ' ') := by
  have hv0 : run_v0 states tape0 mtl msteps =
      .ok (trim_output out.tape out.tape_ix.toNat) := by
    unfold run_v0
    rw [h]
  have hloop : pass1_loop states mtl msteps (msteps + 1) (init1 tape0) =
      .ok out := by
    unfold run1 at h
    rcases hchk : check_tape_chars tape0 0 with e | u
    · rw [hchk] at h
      simp at h
    · rw [hchk] at h
      cases u
      exact h
  have hlen0 : 0 < tape0.length := List.length_pos.mpr hne
  have hfin := pass1_loop_final hdir hloop (by simp only [init1]; omega)
    (by simp only [init1]; omega) (by simp only [init1]; omega)
  obtain ⟨hix0, hixlt, hhead⟩ := hfin
  set ixn := out.tape_ix.toNat with hixn
  have hixnlt : ixn < out.tape.length := by omega
  set p := out.tape.take (ixn + 1) with hp
  obtain ⟨k, hk, htrim, hblank, hmax, hlast⟩ := trim_core_spec p
  have hplen : p.length = ixn + 1 := by rw [hp, List.length_take]; omega
  have hlastp : p.getLastD ' ' = tape_read out.tape out.tape_ix := by
    rw [hp, getLastD_take hixnlt, tape_read_eq_getD hix0,
      List.getD_eq_getElem?_getD, List.getD_eq_getElem?_getD,
      List.getElem?_eq_getElem hixnlt]
    rfl
  have hnb : p.getLastD ' ' ≠ ' ' := by
    rw [hlastp]
    rcases hhead with h1 | h1 <;> rw [h1] <;> decide
  have hklt : k < p.length := hlast hnb
  have hl : trim_output out.tape ixn = p.drop k := by
    unfold trim_output
    rw [← hp]
    exact htrim
  refine ⟨trim_output out.tape ixn, k, hv0, by rw [hl, hp], by omega, ?_, ?_, ?_⟩
  · rw [hl]
    intro hcontra
    rw [List.drop_eq_nil_iff] at hcontra
    omega
  · rw [hl]
    exact hblank
  · rcases hmax with h0 | hpb
    · exact Or.inl h0
    · refine Or.inr ?_
      have hpk : p[k - 1]? = out.tape[k - 1]? := by
        rw [hp, List.getElem?_take, if_pos (by omega)]
      rw [List.getD_eq_getElem?_getD] at hpb ⊢
      rw [← hpk]
      exact hpb

/-- C3, counterexample to the claim as stated: with the table parse_tm
returns for the specification 1011 and the tape 011, the machine halts
with head position 1 and final tape 011; the maximal contiguous non
blank substring containing the head is the whole tape 011, but the
program prints 01, discarding the non blank cell right of the head. -/
theorem trimmed_output_c3_counterexample :
    run1 tbl1 ['0', '1', '1'] 10 10 = .ok ⟨['0', '1', '1'], 1, 1, 0, 2, 2⟩ ∧
      run_v0 tbl1 ['0', '1', '1'] 10 10 = .ok ['0', '1'] ∧
      spec_trimmed ['0', '1', '1'] 1 = ['0', '1', '1'] ∧
      (['0', '1'] : List Char) ≠ ['0', '1', '1'] := by
  refine ⟨by decide, by decide, by decide, by decide⟩

theorem trimmed_output_c3_witness :
    ∃ l k, run_v0 tbl1 ['0', '1', '1'] 10 10 = .ok l ∧
      l = ((['0', '1', '1'] : List Char).take ((1 : Int).toNat + 1)).drop k ∧
      k ≤ (1 : Int).toNat ∧ l ≠ [] ∧
      (∀ c ∈ l, c ≠ ' ') ∧
      (k = 0 ∨ (['0', '1', '1'] : List Char).getD (k - 1) ' ' = ' ') :=
  trimmed_output_c3 tbl1 ['0', '1', '1'] 10 10 ⟨['0', '1', '1'], 1, 1, 0, 2, 2⟩
    (by unfold dir_ok; decide) (by decide) (by decide)

/-- The action selection rule as claim C1 words it: reading the
character 1 selects on_one, reading 0 or a Blank selects on_zero. -/
def claimed_action (states : List state) (curr : Nat) (c : Char) : action :=
  if c = '1' then (get_state states curr).action1
  else (get_state states curr).action0

theorem sel_action_eq_claimed {c : Char} (states : List state) (curr : Nat)
    (hc : c = '0' ∨ c = '1' ∨ c = ' ') :
    sel_action states curr c = claimed_action states curr c := by
  unfold sel_action claimed_action
  rcases hc with h | h | h <;> subst h
  · rw [if_pos (Or.inl rfl), if_neg (by decide)]
  · rw [if_neg (by decide), if_pos rfl]
  · rw [if_pos (Or.inr rfl), if_neg (by decide)]

/-- The property claim C1 ascribes to one iteration of the first loop of
run, with its limit checks out of the way: the symbol under the head, a
0, a 1 or a Blank, selects on_zero for 0 and Blank and on_one for 1; the
written-back cell holds the character of value_to_write; direction zero,
the encoding of Stop, is exactly the case in which the loop ends the
run; otherwise the loop continues with the head moved one cell in the
direction, the written character behind it, and the selected action
giving the next state. -/
def Pass1StepSpec (states : List state) (mtl msteps : Nat)
    (s : Pass1State) : Prop :=
  ((tape_read s.tape s.tape_ix = '0' ∨ tape_read s.tape s.tape_ix = ' ') →
    claimed_action states s.curr (tape_read s.tape s.tape_ix) =
      (get_state states s.curr).action0) ∧
  (tape_read s.tape s.tape_ix = '1' →
    claimed_action states s.curr (tape_read s.tape s.tape_ix) =
      (get_state states s.curr).action1) ∧
  ((claimed_action states s.curr (tape_read s.tape s.tape_ix)).direction_to_move
      = 0 →
    pass1_step states mtl msteps s = .ok (.inl
      ⟨tape_write s.tape s.tape_ix
          (write_char (claimed_action states s.curr (tape_read s.tape s.tape_ix))),
        s.tape_ix, s.rel_tape_ix, s.min_rel, s.max_rel, s.step + 1⟩)) ∧
  ((claimed_action states s.curr (tape_read s.tape s.tape_ix)).direction_to_move
      ≠ 0 →
    ∃ s', pass1_step states mtl msteps s = .ok (.inr s') ∧
      s'.curr =
        (claimed_action states s.curr (tape_read s.tape s.tape_ix)).next_state ∧
      s'.rel_tape_ix = s.rel_tape_ix +
        (claimed_action states s.curr
          (tape_read s.tape s.tape_ix)).direction_to_move ∧
      s'.step = s.step + 1 ∧
      tape_read s'.tape (s'.tape_ix -
          (claimed_action states s.curr
            (tape_read s.tape s.tape_ix)).direction_to_move) =
        write_char (claimed_action states s.curr (tape_read s.tape s.tape_ix)))

/-- The same property for one iteration of the second loop of run. -/
def Pass2StepSpec (states : List state) (v : Nat) (s : Pass2State) : Prop :=
  ((tape_read s.tape s.tape_ix = '0' ∨ tape_read s.tape s.tape_ix = ' ') →
    claimed_action states s.curr (tape_read s.tape s.tape_ix) =
      (get_state states s.curr).action0) ∧
  (tape_read s.tape s.tape_ix = '1' →
    claimed_action states s.curr (tape_read s.tape s.tape_ix) =
      (get_state states s.curr).action1) ∧
  ((claimed_action states s.curr (tape_read s.tape s.tape_ix)).direction_to_move
      = 0 →
    ∃ fr, pass2_step states v s = .inl
      ⟨tape_write s.tape s.tape_ix
          (write_char (claimed_action states s.curr (tape_read s.tape s.tape_ix))),
        s.tape_ix, s.step + 1, fr⟩) ∧
  ((claimed_action states s.curr (tape_read s.tape s.tape_ix)).direction_to_move
      ≠ 0 →
    ∃ fr, pass2_step states v s = .inr
      ⟨tape_write s.tape s.tape_ix
          (write_char (claimed_action states s.curr (tape_read s.tape s.tape_ix))),
        (claimed_action states s.curr (tape_read s.tape s.tape_ix)).next_state,
        s.tape_ix +
          (claimed_action states s.curr
            (tape_read s.tape s.tape_ix)).direction_to_move,
        s.step + 1, fr⟩)

/-- C1: in both passes, every simulation step reads the symbol at the
head, where a Blank selects the same action as reading 0, selects the
current state on_zero or on_one action accordingly, writes the character
of value_to_write to the head cell, ends the run exactly when the
direction is the Stop encoding zero, and otherwise moves the head one
cell in the direction and makes next_state current. -/
theorem step_semantics_c1 :
    (∀ (states : List state) (mtl msteps : Nat) (s : Pass1State),
      s.step ≠ msteps → ¬ s.tape.length > mtl →
      0 ≤ s.tape_ix → s.tape_ix < (s.tape.length : Int) →
      (tape_read s.tape s.tape_ix = '0' ∨ tape_read s.tape s.tape_ix = '1' ∨
        tape_read s.tape s.tape_ix = ' ') →
      Pass1StepSpec states mtl msteps s) ∧
    (∀ (states : List state) (v : Nat) (s : Pass2State),
      0 ≤ s.tape_ix → s.tape_ix < (s.tape.length : Int) →
      (tape_read s.tape s.tape_ix = '0' ∨ tape_read s.tape s.tape_ix = '1' ∨
        tape_read s.tape s.tape_ix = ' ') →
      Pass2StepSpec states v s) := by
  constructor
  · intro states mtl msteps s h1 h2 hix0 hixlt hc
    have hsel := sel_action_eq_claimed states s.curr hc
    have hwlt : s.tape_ix <
        ((tape_write s.tape s.tape_ix (write_char
          (claimed_action states s.curr (tape_read s.tape s.tape_ix)))).length
          : Int) := by
      rw [length_tape_write]
      exact hixlt
    refine ⟨?_, ?_, ?_, ?_⟩
    · intro hcc
      unfold claimed_action
      rcases hcc with h | h <;> rw [h, if_neg (by decide)]
    · intro h1c
      unfold claimed_action
      rw [h1c, if_pos rfl]
    · intro hd0
      unfold pass1_step
      rw [if_neg h1, if_neg h2]
      simp only [hsel]
      rw [if_pos hd0]
    · intro hd0
      unfold pass1_step
      rw [if_neg h1, if_neg h2]
      simp only [hsel]
      rw [if_neg hd0]
      by_cases hneg : s.tape_ix +
          (claimed_action states s.curr
            (tape_read s.tape s.tape_ix)).direction_to_move < 0
      · rw [if_pos hneg]
        refine ⟨_, rfl, rfl, rfl, rfl, ?_⟩
        have harg : s.tape_ix +
            (claimed_action states s.curr
              (tape_read s.tape s.tape_ix)).direction_to_move +
            (s.tape_expansion_amt : Int) -
            (claimed_action states s.curr
              (tape_read s.tape s.tape_ix)).direction_to_move =
            s.tape_ix + (s.tape_expansion_amt : Int) := by
          ring
        rw [harg, tape_read_prepend _ _ hix0,
          tape_read_write_self _ hix0 hixlt]
      · rw [if_neg hneg]
        have harg : s.tape_ix +
            (claimed_action states s.curr
              (tape_read s.tape s.tape_ix)).direction_to_move -
            (claimed_action states s.curr
              (tape_read s.tape s.tape_ix)).direction_to_move = s.tape_ix := by
          ring
        by_cases heq : s.tape_ix +
            (claimed_action states s.curr
              (tape_read s.tape s.tape_ix)).direction_to_move =
            ((tape_write s.tape s.tape_ix (write_char
              (claimed_action states s.curr
                (tape_read s.tape s.tape_ix)))).length : Int)
        · rw [if_pos heq]
          refine ⟨_, rfl, rfl, rfl, rfl, ?_⟩
          rw [harg, tape_read_append_left hwlt,
            tape_read_write_self _ hix0 hixlt]
        · rw [if_neg heq]
          refine ⟨_, rfl, rfl, rfl, rfl, ?_⟩
          rw [harg, tape_read_write_self _ hix0 hixlt]
  · intro states v s hix0 hixlt hc
    have hsel := sel_action_eq_claimed states s.curr hc
    refine ⟨?_, ?_, ?_, ?_⟩
    · intro hcc
      unfold claimed_action
      rcases hcc with h | h <;> rw [h, if_neg (by decide)]
    · intro h1c
      unfold claimed_action
      rw [h1c, if_pos rfl]
    · intro hd0
      refine ⟨if v = 2 ∨ write_char (claimed_action states s.curr
            (tape_read s.tape s.tape_ix)) ≠ tape_read s.tape s.tape_ix then
          s.frames ++ [⟨s.step + 1, s.curr,
            tape_write s.tape s.tape_ix (write_char (claimed_action states
              s.curr (tape_read s.tape s.tape_ix))), s.tape_ix⟩]
        else s.frames, ?_⟩
      unfold pass2_step
      simp only [hsel]
      rw [if_pos hd0]
    · intro hd0
      refine ⟨if v = 2 ∨ write_char (claimed_action states s.curr
            (tape_read s.tape s.tape_ix)) ≠ tape_read s.tape s.tape_ix then
          s.frames ++ [⟨s.step + 1, s.curr,
            tape_write s.tape s.tape_ix (write_char (claimed_action states
              s.curr (tape_read s.tape s.tape_ix))), s.tape_ix⟩]
        else s.frames, ?_⟩
      unfold pass2_step
      simp only [hsel]
      rw [if_neg hd0]

theorem step_semantics_c1_witness :
    Pass1StepSpec tbl1 10 5 ⟨['0', '1'], 7, 0, 0, 0, 0, 1, 0⟩ ∧
      Pass2StepSpec tbl1 1 ⟨['0'], 0, 0, 0, []⟩ :=
  ⟨step_semantics_c1.1 tbl1 10 5 ⟨['0', '1'], 7, 0, 0, 0, 0, 1, 0⟩
      (by decide) (by decide) (by decide) (by decide) (by decide),
    step_semantics_c1.2 tbl1 1 ⟨['0'], 0, 0, 0, []⟩
      (by decide) (by decide) (by decide)⟩

/-! ## Structure of successful decodes -/

theorem build_actions_cons {sl ix : Nat} {body : List token} {t : token}
    {rest : List (List token × token)} {as : List action}
    (h : build_actions sl ((body, t) :: rest) ix = .ok as) :
    ∃ a as', mk_action sl (ix / 2) body t = .ok a ∧
      build_actions sl rest (ix + 1) = .ok as' ∧ as = a :: as' := by
  simp only [build_actions] at h
  rcases hmk : mk_action sl (ix / 2) body t with e | a <;> rw [hmk] at h
  · simp at h
  · rcases hb : build_actions sl rest (ix + 1) with e | as' <;> rw [hb] at h
    · simp at h
    · simp only [Except.ok.injEq] at h
      exact ⟨a, as', rfl, rfl, h.symm⟩

theorem build_actions_length : ∀ {sl : Nat}
    {segs : List (List token × token)} {ix : Nat} {as : List action},
    build_actions sl segs ix = .ok as → as.length = segs.length := by
  intro sl segs
  induction segs with
  | nil =>
      intro ix as h
      simp only [build_actions, Except.ok.injEq] at h
      rw [← h]
      rfl
  | cons seg rest ih =>
      intro ix as h
      obtain ⟨body, t⟩ := seg
      obtain ⟨a, as', -, hb, has⟩ := build_actions_cons h
      rw [has, List.length_cons, List.length_cons, ih hb]

theorem build_actions_mem : ∀ {sl : Nat}
    {segs : List (List token × token)} {ix : Nat} {as : List action},
    build_actions sl segs ix = .ok as →
    ∀ a ∈ as, ∃ n body t, mk_action sl n body t = .ok a := by
  intro sl segs
  induction segs with
  | nil =>
      intro ix as h a ha
      simp only [build_actions, Except.ok.injEq] at h
      rw [← h] at ha
      simp at ha
  | cons seg rest ih =>
      intro ix as h a ha
      obtain ⟨body, t⟩ := seg
      obtain ⟨a0, as', hmk, hb, has⟩ := build_actions_cons h
      rw [has] at ha
      rcases List.mem_cons.mp ha with h1 | h1
      · exact ⟨ix / 2, body, t, h1 ▸ hmk⟩
      · exact ih hb a h1

theorem segments_length : ∀ (toks : List token) (acc : List token),
    (segments toks acc).length = toks.countP (fun t => decide (2 ≤ t)) := by
  intro toks
  induction toks with
  | nil => intro acc; rfl
  | cons t rest ih =>
      intro acc
      unfold segments
      rw [List.countP_cons]
      by_cases h2 : 2 ≤ t
      · rw [if_pos h2, List.length_cons, ih, if_pos (decide_eq_true h2)]
      · rw [if_neg h2, ih, if_neg (by simpa using h2)]
        rfl

theorem pair_states_length : ∀ (as : List action) (n : Nat),
    (pair_states as n).length = as.length / 2
  | [], _ => rfl
  | [a], n => by
      have h1 : pair_states [a] n = [] := rfl
      rw [h1, List.length_nil, List.length_cons, List.length_nil]
  | a0 :: a1 :: rest, n => by
      show (⟨n, a0, a1⟩ :: pair_states rest (n + 1)).length = _
      rw [List.length_cons, pair_states_length rest (n + 1),
        List.length_cons, List.length_cons]
      omega

theorem pair_states_mem : ∀ {as : List action} {n : Nat} {st : state},
    st ∈ pair_states as n → st.action0 ∈ as ∧ st.action1 ∈ as
  | [], _, _, h => by simp [pair_states] at h
  | [_], _, _, h => by simp [pair_states] at h
  | a0 :: a1 :: rest, n, st, h => by
      rcases List.mem_cons.mp h with h1 | h1
      · subst h1
        exact ⟨List.mem_cons_self _ _, List.mem_cons_of_mem _
          (List.mem_cons_self _ _)⟩
      · obtain ⟨h0, h2⟩ := pair_states_mem h1
        exact ⟨List.mem_cons_of_mem _ (List.mem_cons_of_mem _ h0),
          List.mem_cons_of_mem _ (List.mem_cons_of_mem _ h2)⟩

theorem pair_states_getD : ∀ (as : List action) (n i : Nat),
    2 * i + 1 < as.length →
    (pair_states as n).getD i dState =
      ⟨n + i, as.getD (2 * i) dAction, as.getD (2 * i + 1) dAction⟩
  | [], _, i, h => by simp at h
  | [_], _, i, h => by
      simp only [List.length_cons, List.length_nil] at h
      omega
  | a0 :: a1 :: rest, n, 0, _ => rfl
  | a0 :: a1 :: rest, n, i + 1, h => by
      have hlt : 2 * i + 1 < rest.length := by
        simp only [List.length_cons] at h
        omega
      show (pair_states rest (n + 1)).getD i dState = _
      rw [pair_states_getD rest (n + 1) i hlt]
      have e2 : 2 * (i + 1) = 2 * i + 1 + 1 := by ring
      rw [e2, List.getD_cons_succ, List.getD_cons_succ,
        List.getD_cons_succ, List.getD_cons_succ]
      have e4 : n + 1 + i = n + (i + 1) := by ring
      rw [e4]

theorem parse_ok_parts {tm : List Char} {states : List state}
    (h : parse_tm tm = .ok states) :
    ∃ toks as, tokenize (wrap tm) 0 0 = .ok toks ∧
      (toks.countP (fun t => decide (2 ≤ t))) % 2 = 0 ∧
      build_actions ((toks.countP (fun t => decide (2 ≤ t))) / 2)
        (segments toks []) 0 = .ok as ∧
      states = pair_states as 0 := by
  unfold parse_tm at h
  rcases hchk : check_tm_chars tm 0 with e | u <;> rw [hchk] at h
  · simp at h
  · cases u
    rcases htok : tokenize (wrap tm) 0 0 with e | toks <;> rw [htok] at h
    · simp at h
    · have h2 : (if (toks.countP (fun t => decide (2 ≤ t))) % 2 ≠ 0 then
          (Except.error ParseError.incompleteStateDefinition :
            Except ParseError (List state))
        else
          match build_actions ((toks.countP (fun t => decide (2 ≤ t))) / 2)
              (segments toks []) 0 with
          | .error e => .error e
          | .ok as => .ok (pair_states as 0)) = .ok states := h
      split at h2
      · simp at h2
      · rename_i hodd
        rcases hb : build_actions
            ((toks.countP (fun t => decide (2 ≤ t))) / 2)
            (segments toks []) 0 with e | as <;> rw [hb] at h2
        · simp at h2
        · simp only [Except.ok.injEq] at h2
          exact ⟨toks, as, rfl, by omega, hb, h2.symm⟩

theorem tokenize_wrap_first {tm : List Char} {toks : List token}
    (h : tokenize (wrap tm) 0 0 = .ok toks) : ∃ ts, toks = 2 :: ts := by
  unfold wrap at h
  have hstep : tokenize ('1' :: '1' :: '0' :: (tm ++ ['1', '1', '0'])) 0 0 =
      match tokenize (tm ++ ['1', '1', '0']) 3 0 with
      | .error e => .error e
      | .ok ts => .ok (2 :: ts) := rfl
  rw [hstep] at h
  rcases htok2 : tokenize (tm ++ ['1', '1', '0']) 3 0 with e | ts <;>
    rw [htok2] at h
  · simp at h
  · simp only [Except.ok.injEq] at h
    exact ⟨ts, h.symm⟩

theorem parse_ok_length {tm : List Char} {states : List state}
    (h : parse_tm tm = .ok states) :
    ∃ toks, tokenize (wrap tm) 0 0 = .ok toks ∧
      states.length = (toks.countP (fun t => decide (2 ≤ t))) / 2 := by
  obtain ⟨toks, as, htok, heven, hb, hs⟩ := parse_ok_parts h
  exact ⟨toks, htok, by
    rw [hs, pair_states_length, build_actions_length hb, segments_length]⟩

theorem parse_ok_states_pos {tm : List Char} {states : List state}
    (h : parse_tm tm = .ok states) : 1 ≤ states.length := by
  obtain ⟨toks, as, htok, heven, hb, hs⟩ := parse_ok_parts h
  obtain ⟨ts, hts⟩ := tokenize_wrap_first htok
  obtain ⟨toks2, htok2, hlen⟩ := parse_ok_length h
  rw [htok] at htok2
  have : toks2 = toks := by
    simp only [Except.ok.injEq] at htok2
    exact htok2.symm
  subst this
  rw [hts] at heven hlen
  rw [List.countP_cons, if_pos (by decide)] at heven hlen
  omega

theorem mk_action_next {sl num : Nat} {body : List token} {t : token}
    {a : action} (h : mk_action sl num body t = .ok a) (hsl : 1 ≤ sl) :
    a.next_state < sl := by
  rcases body with _ | ⟨b, _ | ⟨b2, rest⟩⟩
  · simp only [mk_action, Except.ok.injEq] at h
    rw [← h]
    exact hsl
  · simp only [mk_action, Except.ok.injEq] at h
    rw [← h]
    exact hsl
  · simp only [mk_action] at h
    split at h
    · simp at h
    · rename_i hcond
      simp only [Except.ok.injEq] at h
      rw [← h]
      show binvalAux (b :: b2 :: rest).dropLast.reverse 0 < sl
      omega

/-- C4: every next_state in a table parse_tm accepts is a valid index
below the number of states, and a body whose enclosed binary address is
out of range is rejected with the undefined state reference error that
carries the referencing state number and the bad target. -/
theorem next_state_valid_c4 :
    (∀ (tm : List Char) (states : List state), parse_tm tm = .ok states →
      ∀ st ∈ states, st.action0.next_state < states.length ∧
        st.action1.next_state < states.length) ∧
    (∀ (sl num : Nat) (bs : List token) (b t : token), bs ≠ [] → sl ≠ 0 →
      binvalAux bs.reverse 0 > sl - 1 →
      mk_action sl num (bs ++ [b]) t =
        .error (.undefinedStateReference num (binvalAux bs.reverse 0))) := by
  constructor
  · intro tm states h st hst
    obtain ⟨toks, as, htok, heven, hb, hs⟩ := parse_ok_parts h
    have hpos : 1 ≤ states.length := parse_ok_states_pos h
    have hlen : states.length =
        (toks.countP (fun t => decide (2 ≤ t))) / 2 := by
      rw [hs, pair_states_length, build_actions_length hb, segments_length]
    rw [hs] at hst
    obtain ⟨h0, h1⟩ := pair_states_mem hst
    obtain ⟨n0, b0, t0, hmk0⟩ := build_actions_mem hb _ h0
    obtain ⟨n1, b1, t1, hmk1⟩ := build_actions_mem hb _ h1
    rw [hlen] at hpos ⊢
    exact ⟨mk_action_next hmk0 hpos, mk_action_next hmk1 hpos⟩
  · intro sl num bs b t hne hsl hgt
    rcases bs with _ | ⟨x, bs'⟩
    · exact absurd rfl hne
    · obtain ⟨y, ys, hys⟩ := List.exists_cons_of_ne_nil
        (show bs' ++ [b] ≠ [] by simp)
      have hbody : (x :: bs') ++ [b] = x :: y :: ys := by
        rw [List.cons_append, hys]
      rw [hbody]
      have hdl : (x :: y :: ys).dropLast = x :: bs' := by
        rw [← hbody, List.dropLast_concat]
      simp only [mk_action, hdl]
      rw [if_pos ⟨hsl, hgt⟩]

theorem next_state_valid_c4_witness :
    (∀ st ∈ [(⟨0, ⟨0, 1, 0⟩, ⟨0, 1, 0⟩⟩ : state)],
      st.action0.next_state <
          [(⟨0, ⟨0, 1, 0⟩, ⟨0, 1, 0⟩⟩ : state)].length ∧
        st.action1.next_state <
          [(⟨0, ⟨0, 1, 0⟩, ⟨0, 1, 0⟩⟩ : state)].length) ∧
      mk_action 1 0 ([1] ++ [0]) 2 =
        .error (.undefinedStateReference 0 (binvalAux ([1] : List token).reverse 0)) :=
  ⟨next_state_valid_c4.1 [] [⟨0, ⟨0, 1, 0⟩, ⟨0, 1, 0⟩⟩] (by decide),
    next_state_valid_c4.2 1 0 [1] 0 2 (by decide) (by decide) (by decide)⟩

/-! ## The binary address loop computes the MSB first value -/

theorem binvalAux_append_singleton : ∀ (l : List token) (x : token) (j : Nat),
    binvalAux (l ++ [x]) j = binvalAux l j + x * 2 ^ (j + l.length)
  | [], x, j => by
      simp only [List.nil_append, binvalAux, List.length_nil, Nat.add_zero]
      ring
  | t :: ts, x, j => by
      show binvalAux (t :: (ts ++ [x])) j =
        binvalAux (t :: ts) j + x * 2 ^ (j + (t :: ts).length)
      simp only [binvalAux, List.length_cons]
      rw [binvalAux_append_singleton ts x (j + 1)]
      ring

theorem foldl_msb : ∀ (bs : List token) (acc : Nat),
    bs.foldl (fun a t => 2 * a + t) acc =
      acc * 2 ^ bs.length + bs.foldl (fun a t => 2 * a + t) 0
  | [], acc => by simp
  | x :: xs, acc => by
      show xs.foldl (fun a t => 2 * a + t) (2 * acc + x) =
        acc * 2 ^ (x :: xs).length + xs.foldl (fun a t => 2 * a + t) (2 * 0 + x)
      rw [foldl_msb xs (2 * acc + x), foldl_msb xs (2 * 0 + x),
        List.length_cons]
      ring

theorem binval_eq_msb : ∀ (bs : List token),
    binvalAux bs.reverse 0 = bs.foldl (fun a t => 2 * a + t) 0
  | [] => rfl
  | x :: xs => by
      rw [List.reverse_cons, binvalAux_append_singleton, binval_eq_msb xs]
      show _ = xs.foldl (fun a t => 2 * a + t) (2 * 0 + x)
      rw [foldl_msb xs (2 * 0 + x), List.length_reverse]
      ring

/-- C2: the body of an action, the tokens since the previous terminator,
determines the written bit and the target state exactly as the claim
says: no token gives write bit 0 and target 0; a single token gives that
token as the write bit and target 0; two or more tokens give the last
token as the write bit and, when the decode succeeds, the earlier tokens
read most significant bit first as the target state index. -/
theorem action_body_decode_c2 (sl num : Nat) (body : List token) (t : token)
    (a : action) (h : mk_action sl num body t = .ok a) :
    (body = [] → a.value_to_write = 0 ∧ a.next_state = 0) ∧
    (∀ b, body = [b] → a.value_to_write = b ∧ a.next_state = 0) ∧
    (∀ bs b, body = bs ++ [b] → bs ≠ [] →
      a.value_to_write = b ∧
      a.next_state = bs.foldl (fun acc t2 => 2 * acc + t2) 0) := by
  refine ⟨?_, ?_, ?_⟩
  · intro hb
    subst hb
    simp only [mk_action, Except.ok.injEq] at h
    rw [← h]
    exact ⟨rfl, rfl⟩
  · intro b hb
    subst hb
    simp only [mk_action, Except.ok.injEq] at h
    rw [← h]
    exact ⟨rfl, rfl⟩
  · intro bs b hb hbs
    subst hb
    rcases bs with _ | ⟨x, bs'⟩
    · exact absurd rfl hbs
    · obtain ⟨y, ys, hys⟩ := List.exists_cons_of_ne_nil
        (show bs' ++ [b] ≠ [] by simp)
      have hbody : (x :: bs') ++ [b] = x :: y :: ys := by
        rw [List.cons_append, hys]
      rw [hbody] at h
      simp only [mk_action] at h
      split at h
      · simp at h
      · simp only [Except.ok.injEq] at h
        rw [← h]
        constructor
        · show (x :: y :: ys).getLastD 0 = b
          rw [← hbody, List.getLastD_concat]
        · show binvalAux (x :: y :: ys).dropLast.reverse 0 = _
          rw [show x :: y :: ys = (x :: bs') ++ [b] from hbody.symm,
            List.dropLast_concat, binval_eq_msb]

theorem action_body_decode_c2_witness :
    (([1, 0, 1] : List token) = [] →
      (⟨1, 1, 2⟩ : action).value_to_write = 0 ∧
        (⟨1, 1, 2⟩ : action).next_state = 0) ∧
    (∀ b, ([1, 0, 1] : List token) = [b] →
      (⟨1, 1, 2⟩ : action).value_to_write = b ∧
        (⟨1, 1, 2⟩ : action).next_state = 0) ∧
    (∀ bs b, ([1, 0, 1] : List token) = bs ++ [b] → bs ≠ [] →
      (⟨1, 1, 2⟩ : action).value_to_write = b ∧
        (⟨1, 1, 2⟩ : action).next_state =
          bs.foldl (fun acc t2 => 2 * acc + t2) 0) :=
  action_body_decode_c2 3 0 [1, 0, 1] 2 ⟨1, 1, 2⟩ (by decide)

/-- Every action a successful decode produces moves by minus one, plus
one or zero, so every table parse_tm returns satisfies dir_ok and the
engine theorems apply to it. -/
theorem mk_action_dir {sl num : Nat} {body : List token} {t : token}
    {a : action} (h : mk_action sl num body t = .ok a) :
    a.direction_to_move = -1 ∨ a.direction_to_move = 1 ∨
      a.direction_to_move = 0 := by
  have hd : (if t = 2 then (1 : Int) else if t = 3 then -1 else 0) = -1 ∨
      (if t = 2 then (1 : Int) else if t = 3 then -1 else 0) = 1 ∨
      (if t = 2 then (1 : Int) else if t = 3 then -1 else 0) = 0 := by
    split
    · exact Or.inr (Or.inl rfl)
    · split
      · exact Or.inl rfl
      · exact Or.inr (Or.inr rfl)
  rcases body with _ | ⟨b, _ | ⟨b2, rest⟩⟩
  · simp only [mk_action, Except.ok.injEq] at h
    rw [← h]
    exact hd
  · simp only [mk_action, Except.ok.injEq] at h
    rw [← h]
    exact hd
  · simp only [mk_action] at h
    split at h
    · simp at h
    · simp only [Except.ok.injEq] at h
      rw [← h]
      exact hd

theorem parse_tm_dir_ok {tm : List Char} {states : List state}
    (h : parse_tm tm = .ok states) : dir_ok states := by
  obtain ⟨toks, as, htok, heven, hb, hs⟩ := parse_ok_parts h
  intro st hst
  rw [hs] at hst
  obtain ⟨h0, h1⟩ := pair_states_mem hst
  obtain ⟨n0, b0, t0, hmk0⟩ := build_actions_mem hb _ h0
  obtain ⟨n1, b1, t1, hmk1⟩ := build_actions_mem hb _ h1
  exact ⟨mk_action_dir hmk0, mk_action_dir hmk1⟩

theorem check_tm_chars_of_valid : ∀ (l : List Char) (ix : Nat),
    (∀ c ∈ l, c = '0' ∨ c = '1') → check_tm_chars l ix = .ok ()
  | [], _, _ => rfl
  | c :: rest, ix, h => by
      unfold check_tm_chars
      rw [if_neg (by
        rcases h c (List.mem_cons_self c rest) with h1 | h1 <;> simp [h1])]
      exact check_tm_chars_of_valid rest (ix + 1)
        (fun d hd => h d (List.mem_cons_of_mem c hd))

/-- Once the count of characters since the last 0 can only reach six,
five more ones followed by anything force the run length error. -/
theorem tokenize_six : ∀ (k len ix : Nat) (w : List Char), 5 ≤ len + k →
    w ≠ [] →
    ∃ j, tokenize (List.replicate k '1' ++ w) ix len =
      .error (.invalidRunLength j) := by
  intro k
  induction k with
  | zero =>
      intro len ix w h5 hw
      rcases w with _ | ⟨c, rest⟩
      · exact absurd rfl hw
      · refine ⟨ix, ?_⟩
        show tokenize (c :: rest) ix len = _
        unfold tokenize
        rw [if_pos (by omega)]
  | succ k ih =>
      intro len ix w h5 hw
      simp only [List.replicate_succ, List.cons_append]
      by_cases hlen : len + 1 > 5
      · refine ⟨ix, ?_⟩
        unfold tokenize
        rw [if_pos hlen]
      · obtain ⟨j, hj⟩ := ih (len + 1) (ix + 1) w (by omega) hw
        refine ⟨j, ?_⟩
        unfold tokenize
        rw [if_neg hlen, if_neg (by decide)]
        exact hj

/-- A stream that somewhere holds five consecutive ones followed by at
least one more character always makes the tokenizer fail with the run
length error, whatever state it is in when it reaches them. -/
theorem tokenize_contains_five : ∀ (u : List Char) (ix len : Nat)
    (w : List Char), w ≠ [] →
    ∃ j, tokenize (u ++ (List.replicate 5 '1' ++ w)) ix len =
      .error (.invalidRunLength j) := by
  intro u
  induction u with
  | nil =>
      intro ix len w hw
      simp only [List.nil_append]
      exact tokenize_six 5 len ix w (by omega) hw
  | cons c cs ih =>
      intro ix len w hw
      simp only [List.cons_append]
      by_cases h5 : len + 1 > 5
      · refine ⟨ix, ?_⟩
        unfold tokenize
        rw [if_pos h5]
      · by_cases hc : c = '0'
        · obtain ⟨j, hj⟩ := ih (ix + 1) 0 w hw
          refine ⟨j, ?_⟩
          unfold tokenize
          rw [if_neg h5, if_pos hc, hj]
        · obtain ⟨j, hj⟩ := ih (ix + 1) (len + 1) w hw
          refine ⟨j, ?_⟩
          unfold tokenize
          rw [if_neg h5, if_neg hc]
          exact hj

/-- The offset, relative to the current position, at which the
tokenizer loop will report the run length error, mirroring its counter:
the error fires immediately when the count of characters consumed since
the last 0 would exceed five, a 0 resets the counter, anything else
grows it. -/
def firstFail? : List Char → Nat → Option Nat
  | [], _ => none
  | c :: rest, len =>
      if len + 1 > 5 then some 0
      else if c = '0' then (firstFail? rest 0).map (· + 1)
      else (firstFail? rest (len + 1)).map (· + 1)

theorem firstFail_none : ∀ (l : List Char) (len ix : Nat),
    firstFail? l len = none → ∃ ts, tokenize l ix len = .ok ts
  | [], _, _, _ => ⟨[], rfl⟩
  | c :: rest, len, ix, h => by
      unfold firstFail? at h
      split at h
      · simp at h
      · split at h
        · rw [Option.map_eq_none'] at h
          obtain ⟨ts, hts⟩ := firstFail_none rest 0 (ix + 1) h
          refine ⟨len :: ts, ?_⟩
          unfold tokenize
          rw [if_neg (by assumption), if_pos (by assumption), hts]
        · rw [Option.map_eq_none'] at h
          obtain ⟨ts, hts⟩ := firstFail_none rest (len + 1) (ix + 1) h
          refine ⟨ts, ?_⟩
          unfold tokenize
          rw [if_neg (by assumption), if_neg (by assumption)]
          exact hts

theorem firstFail_some_tokenize : ∀ (l : List Char) (len ix n : Nat),
    firstFail? l len = some n →
    tokenize l ix len = .error (.invalidRunLength (ix + n))
  | [], _, _, _, h => by simp [firstFail?] at h
  | c :: rest, len, ix, n, h => by
      unfold firstFail? at h
      split at h
      · simp only [Option.some.injEq] at h
        subst h
        unfold tokenize
        rw [if_pos (by assumption), Nat.add_zero]
      · split at h
        · rw [Option.map_eq_some'] at h
          obtain ⟨m, hm, hn⟩ := h
          subst hn
          have hr := firstFail_some_tokenize rest 0 (ix + 1) m hm
          unfold tokenize
          rw [if_neg (by assumption), if_pos (by assumption), hr,
            show ix + (m + 1) = ix + 1 + m from by ring]
        · rw [Option.map_eq_some'] at h
          obtain ⟨m, hm, hn⟩ := h
          subst hn
          have hr := firstFail_some_tokenize rest (len + 1) (ix + 1) m hm
          unfold tokenize
          rw [if_neg (by assumption), if_neg (by assumption), hr,
            show ix + (m + 1) = ix + 1 + m from by ring]

/-- The failure offset of the tokenizer on a binary stream is exactly
the first position preceded by five consecutive one characters, the
counter standing in for ones already consumed. -/
theorem firstFail_some_spec : ∀ (l : List Char) (len n : Nat),
    (∀ c ∈ l, c = '0' ∨ c = '1') → firstFail? l len = some n →
    n < l.length ∧ 5 ≤ len + n ∧
      (∀ i, n - 5 ≤ i → i < n → l.getD i ' ' = '1') ∧
      (∀ m, m < l.length → 5 ≤ len + m →
        (∀ i, m - 5 ≤ i → i < m → l.getD i ' ' = '1') → n ≤ m)
  | [], _, _, _, h => by simp [firstFail?] at h
  | c :: rest, len, n, hvalid, h => by
      have hc01 : c = '0' ∨ c = '1' := hvalid c (List.mem_cons_self c rest)
      have hvr : ∀ d ∈ rest, d = '0' ∨ d = '1' :=
        fun d hd => hvalid d (List.mem_cons_of_mem c hd)
      unfold firstFail? at h
      split at h
      · rename_i h5
        simp only [Option.some.injEq] at h
        subst h
        refine ⟨by simp, by omega, ?_, ?_⟩
        · intro i h1 h2
          exact absurd h2 (by omega)
        · intro m hm h5m hwin
          exact Nat.zero_le m
      · rename_i h5
        split at h
        · rename_i hc
          rw [Option.map_eq_some'] at h
          obtain ⟨m, hm, hn⟩ := h
          subst hn
          obtain ⟨hlt, h5m, hwin, hmin⟩ :=
            firstFail_some_spec rest 0 m hvr hm
          refine ⟨by simp only [List.length_cons]; omega, by omega, ?_, ?_⟩
          · intro i h1 h2
            obtain ⟨i', rfl⟩ : ∃ i', i = i' + 1 := ⟨i - 1, by omega⟩
            rw [List.getD_cons_succ]
            exact hwin i' (by omega) (by omega)
          · intro m' hm' h5m' hwin'
            by_cases hm6 : 6 ≤ m'
            · have hr : ∀ i, (m' - 1) - 5 ≤ i → i < m' - 1 →
                  rest.getD i ' ' = '1' := by
                intro i h1 h2
                have hx := hwin' (i + 1) (by omega) (by omega)
                rwa [List.getD_cons_succ] at hx
              have := hmin (m' - 1)
                (by simp only [List.length_cons] at hm'; omega) (by omega) hr
              omega
            · exfalso
              by_cases hm0 : m' = 0
              · subst hm0
                omega
              · have hx := hwin' 0 (by omega) (by omega)
                rw [List.getD_cons_zero, hc] at hx
                exact absurd hx (by decide)
        · rename_i hc
          have hc1 : c = '1' := by
            rcases hc01 with h1 | h1
            · exact absurd h1 hc
            · exact h1
          rw [Option.map_eq_some'] at h
          obtain ⟨m, hm, hn⟩ := h
          subst hn
          obtain ⟨hlt, h5m, hwin, hmin⟩ :=
            firstFail_some_spec rest (len + 1) m hvr hm
          refine ⟨by simp only [List.length_cons]; omega, by omega, ?_, ?_⟩
          · intro i h1 h2
            by_cases hi0 : i = 0
            · subst hi0
              rw [List.getD_cons_zero]
              exact hc1
            · obtain ⟨i', rfl⟩ : ∃ i', i = i' + 1 := ⟨i - 1, by omega⟩
              rw [List.getD_cons_succ]
              exact hwin i' (by omega) (by omega)
          · intro m' hm' h5m' hwin'
            by_cases hm0 : m' = 0
            · subst hm0
              omega
            · have hr : ∀ i, (m' - 1) - 5 ≤ i → i < m' - 1 →
                  rest.getD i ' ' = '1' := by
                intro i h1 h2
                have hx := hwin' (i + 1) (by omega) (by omega)
                rwa [List.getD_cons_succ] at hx
              have := hmin (m' - 1)
                (by simp only [List.length_cons] at hm'; omega) (by omega) hr
              omega

theorem wrap_valid {tm : List Char} (h : ∀ c ∈ tm, c = '0' ∨ c = '1') :
    ∀ c ∈ wrap tm, c = '0' ∨ c = '1' := by
  intro c hc
  simp only [wrap, List.mem_cons, List.mem_append] at hc
  rcases hc with rfl | rfl | rfl | hc | hc
  · exact Or.inr rfl
  · exact Or.inr rfl
  · exact Or.inl rfl
  · exact h c hc
  · simp only [List.mem_cons, List.not_mem_nil, or_false] at hc
    rcases hc with rfl | rfl | rfl
    · exact Or.inr rfl
    · exact Or.inr rfl
    · exact Or.inl rfl

/-- C7, corrected: a specification over 0 and 1 that contains five
consecutive ones is rejected with the run length error, and runs of zero
to four ones terminated by a 0 decode to the tokens zero to four in
order; the reported index, however, lives in the implicitly wrapped
string, three places to the right of the corresponding position of the
given input: it is the first position of the wrapped string whose five
preceding characters are all ones, that is, the position at which the
count of characters since the last 0 first exceeds five. -/
theorem run_length_c7 :
    (∀ (tm u v : List Char), (∀ c ∈ tm, c = '0' ∨ c = '1') →
      tm = u ++ List.replicate 5 '1' ++ v →
      ∃ j, parse_tm tm = .error (.invalidRunLength j) ∧
        5 ≤ j ∧ j < (wrap tm).length ∧
        (∀ i, j - 5 ≤ i → i < j → (wrap tm).getD i ' ' = '1') ∧
        (∀ j', j' < (wrap tm).length → 5 ≤ j' →
          (∀ i, j' - 5 ≤ i → i < j' → (wrap tm).getD i ' ' = '1') →
          j ≤ j')) ∧
    (∀ (k : Nat) (rest : List Char) (ix : Nat) (ts : List token), k ≤ 4 →
      tokenize rest (ix + k + 1) 0 = .ok ts →
      tokenize (List.replicate k '1' ++ '0' :: rest) ix 0 = .ok (k :: ts)) := by
  constructor
  · intro tm u v hvalid htm
    have hchk := check_tm_chars_of_valid tm 0 hvalid
    have hwvalid := wrap_valid hvalid
    subst htm
    have hw : wrap (u ++ List.replicate 5 '1' ++ v) =
        ('1' :: '1' :: '0' :: u) ++
          (List.replicate 5 '1' ++ (v ++ ['1', '1', '0'])) := by
      unfold wrap
      simp only [List.cons_append, List.append_assoc]
    obtain ⟨j0, hj0⟩ := tokenize_contains_five ('1' :: '1' :: '0' :: u) 0 0
      (v ++ ['1', '1', '0']) (by simp)
    rw [← hw] at hj0
    rcases hff : firstFail? (wrap (u ++ List.replicate 5 '1' ++ v)) 0 with _ | n
    · exfalso
      obtain ⟨ts, hts⟩ := firstFail_none _ 0 0 hff
      rw [hts] at hj0
      simp at hj0
    · have htok := firstFail_some_tokenize _ 0 0 n hff
      rw [Nat.zero_add] at htok
      obtain ⟨hlt, h5n, hwin, hmin⟩ := firstFail_some_spec _ 0 n hwvalid hff
      refine ⟨n, ?_, by omega, hlt, hwin,
        fun j' h1 h2 h3 => hmin j' h1 (by omega) h3⟩
      unfold parse_tm
      rw [hchk, htok]
  · intro k rest ix ts hk htok
    interval_cases k
    · rw [show tokenize (List.replicate 0 '1' ++ '0' :: rest) ix 0 =
          (match tokenize rest (ix + 0 + 1) 0 with
            | .error e => (.error e : Except ParseError (List token))
            | .ok ts2 => .ok (0 :: ts2)) from rfl, htok]
    · rw [show tokenize (List.replicate 1 '1' ++ '0' :: rest) ix 0 =
          (match tokenize rest (ix + 1 + 1) 0 with
            | .error e => (.error e : Except ParseError (List token))
            | .ok ts2 => .ok (1 :: ts2)) from rfl, htok]
    · rw [show tokenize (List.replicate 2 '1' ++ '0' :: rest) ix 0 =
          (match tokenize rest (ix + 2 + 1) 0 with
            | .error e => (.error e : Except ParseError (List token))
            | .ok ts2 => .ok (2 :: ts2)) from rfl, htok]
    · rw [show tokenize (List.replicate 3 '1' ++ '0' :: rest) ix 0 =
          (match tokenize rest (ix + 3 + 1) 0 with
            | .error e => (.error e : Except ParseError (List token))
            | .ok ts2 => .ok (3 :: ts2)) from rfl, htok]
    · rw [show tokenize (List.replicate 4 '1' ++ '0' :: rest) ix 0 =
          (match tokenize rest (ix + 4 + 1) 0 with
            | .error e => (.error e : Except ParseError (List token))
            | .ok ts2 => .ok (4 :: ts2)) from rfl, htok]

/-- C7, counterexample to the claim as stated: the five character input
11111 fails with the run length error at reported index 8, which is not
an index of the given input string at all; the index refers to the
wrapped string 110 11111 110, offset three from the input. -/
theorem run_length_c7_counterexample :
    parse_tm (List.replicate 5 '1') = .error (.invalidRunLength 8) ∧
      (List.replicate 5 '1').length = 5 ∧ ¬ (8 < 5) := by
  refine ⟨by decide, by decide, by decide⟩

theorem run_length_c7_witness :
    (∃ j, parse_tm (List.replicate 5 '1') = .error (.invalidRunLength j) ∧
      5 ≤ j ∧ j < (wrap (List.replicate 5 '1')).length ∧
      (∀ i, j - 5 ≤ i → i < j →
        (wrap (List.replicate 5 '1')).getD i ' ' = '1') ∧
      (∀ j', j' < (wrap (List.replicate 5 '1')).length → 5 ≤ j' →
        (∀ i, j' - 5 ≤ i → i < j' →
          (wrap (List.replicate 5 '1')).getD i ' ' = '1') →
        j ≤ j')) ∧
      tokenize (List.replicate 2 '1' ++ '0' :: ['0']) 0 0 = .ok (2 :: [0]) :=
  ⟨run_length_c7.1 (List.replicate 5 '1') [] [] (by decide) (by decide),
    run_length_c7.2 2 ['0'] 0 [0] (by decide) (by decide)⟩

/-- C9: an odd number of decoded actions is rejected with the
incomplete state definition error; an accepted specification yields
exactly half as many states as actions, and state i holds action 2i as
its response to 0 and action 2i+1 as its response to 1, in decoding
order. -/
theorem action_pairing_c9 :
    (∀ (tm : List Char) (toks : List token),
      check_tm_chars tm 0 = .ok () →
      tokenize (wrap tm) 0 0 = .ok toks →
      (toks.countP (fun t => decide (2 ≤ t))) % 2 = 1 →
      parse_tm tm = .error .incompleteStateDefinition) ∧
    (∀ (tm : List Char) (states : List state),
      parse_tm tm = .ok states →
      ∃ toks as, tokenize (wrap tm) 0 0 = .ok toks ∧
        build_actions ((toks.countP (fun t => decide (2 ≤ t))) / 2)
          (segments toks []) 0 = .ok as ∧
        as.length = toks.countP (fun t => decide (2 ≤ t)) ∧
        states.length = as.length / 2 ∧
        ∀ i, 2 * i + 1 < as.length →
          states.getD i dState =
            ⟨i, as.getD (2 * i) dAction, as.getD (2 * i + 1) dAction⟩) := by
  constructor
  · intro tm toks hchk htok hodd
    have e1 : parse_tm tm =
        (if (toks.countP (fun t => decide (2 ≤ t))) % 2 ≠ 0 then
          (Except.error ParseError.incompleteStateDefinition :
            Except ParseError (List state))
        else
          match build_actions ((toks.countP (fun t => decide (2 ≤ t))) / 2)
              (segments toks []) 0 with
          | .error e => .error e
          | .ok as => .ok (pair_states as 0)) := by
      unfold parse_tm
      rw [hchk, htok]
    rw [e1, if_pos (by omega)]
  · intro tm states h
    obtain ⟨toks, as, htok, heven, hb, hs⟩ := parse_ok_parts h
    refine ⟨toks, as, htok, hb, ?_, ?_, ?_⟩
    · rw [build_actions_length hb, segments_length]
    · rw [hs, pair_states_length]
    · intro i hi
      rw [hs, pair_states_getD as 0 i hi, Nat.zero_add]

theorem action_pairing_c9_witness :
    parse_tm ['1', '1', '0', '0'] = .error .incompleteStateDefinition ∧
      (∃ toks as, tokenize (wrap []) 0 0 = .ok toks ∧
        build_actions ((toks.countP (fun t => decide (2 ≤ t))) / 2)
          (segments toks []) 0 = .ok as ∧
        as.length = toks.countP (fun t => decide (2 ≤ t)) ∧
        ([⟨0, ⟨0, 1, 0⟩, ⟨0, 1, 0⟩⟩] : List state).length = as.length / 2 ∧
        ∀ i, 2 * i + 1 < as.length →
          ([⟨0, ⟨0, 1, 0⟩, ⟨0, 1, 0⟩⟩] : List state).getD i dState =
            ⟨i, as.getD (2 * i) dAction, as.getD (2 * i + 1) dAction⟩) :=
  ⟨action_pairing_c9.1 ['1', '1', '0', '0'] [2, 2, 0, 2]
      (by decide) (by decide) (by decide),
    action_pairing_c9.2 [] [⟨0, ⟨0, 1, 0⟩, ⟨0, 1, 0⟩⟩] (by decide)⟩

/-- C10, corrected: every accepted specification yields at least one
state, so the default target state 0 always exists; the implicit 110
prefix always contributes a leading Right terminated action, which is
why state 0 always answers 0 with write 0, move right, target 0; the
implicit 110 suffix guarantees that the final action is terminated, but
that terminator token absorbs any trailing ones of the input, so the
final action moves Right, Left or stops depending on the input. -/
theorem states_pos_c10 (tm : List Char) (states : List state)
    (h : parse_tm tm = .ok states) :
    1 ≤ states.length ∧ (states.headD dState).action0 = ⟨0, 1, 0⟩ := by
  refine ⟨parse_ok_states_pos h, ?_⟩
  obtain ⟨toks, as, htok, heven, hb, hs⟩ := parse_ok_parts h
  obtain ⟨ts, hts⟩ := tokenize_wrap_first htok
  subst hts
  have hlen2 : as.length = (2 :: ts).countP (fun t => decide (2 ≤ t)) := by
    rw [build_actions_length hb, segments_length]
  have hcount : 2 ≤ (2 :: ts).countP (fun t => decide (2 ≤ t)) := by
    rw [List.countP_cons, if_pos (by decide)] at heven ⊢
    omega
  have hseg : segments (2 :: ts) [] = ([], 2) :: segments ts [] := rfl
  rw [hseg] at hb
  obtain ⟨a, as', hmk, hb', has⟩ := build_actions_cons hb
  have ha : a = ⟨0, 1, 0⟩ := by
    have h2 : (Except.ok (⟨0, 1, 0⟩ : action) : Except ParseError action) =
        .ok a := hmk
    exact (Except.ok.inj h2).symm
  rcases as' with _ | ⟨a1, rest⟩
  · exfalso
    rw [has] at hlen2
    simp only [List.length_cons, List.length_nil] at hlen2
    omega
  · rw [hs, has, ha]
    rfl

/-- C10, counterexample to the claim as stated: for the input 1 the
token that the implicit suffix terminates absorbs the trailing one of
the input and becomes Left, not Right, so the suffix contributed action
of the accepted specification 1 is Left moving. -/
theorem states_pos_c10_counterexample :
    parse_tm ['1'] = .ok [⟨0, ⟨0, 1, 0⟩, ⟨0, -1, 0⟩⟩] ∧
      (⟨0, -1, 0⟩ : action).direction_to_move ≠ 1 := by
  refine ⟨by decide, by decide⟩

theorem states_pos_c10_witness :
    1 ≤ ([⟨0, ⟨0, 1, 0⟩, ⟨0, -1, 0⟩⟩] : List state).length ∧
      (([⟨0, ⟨0, 1, 0⟩, ⟨0, -1, 0⟩⟩] : List state).headD dState).action0 =
        ⟨0, 1, 0⟩ :=
  states_pos_c10 ['1'] [⟨0, ⟨0, 1, 0⟩, ⟨0, -1, 0⟩⟩] (by decide)

end PenroseTuring
